import Mathlib

/-!
Verification of `shut_the_box.py`: a simulator for the dice game Shut the Box.

The Python module is embedded shallowly:
* `find_all_solutions` (the DFS subset-sum enumerator) becomes a pure
  recursive function on `List Int`;
* each strategy class's `choose_numbers` method, which mutates the
  instance field `self.answer`, becomes a function that threads the
  `answer` list explicitly and returns the new value (together with the
  method's boolean result where the method returns one);
* `Game.play`'s while-loop becomes a fuel-indexed step function over the
  pair (numbers, answer), with the die rolls supplied as an arbitrary
  sequence of outcomes.

Machine integers do not overflow in this program (all values are tiny),
so Python ints are modelled as `Int`.
-/

namespace ShutTheBox

/-! ## `find_all_solutions` (src/shut_the_box.py, lines 187-203)

Python:
```
def find_all_solutions(numbers, target):
    solutions = []
    def recurse(numbers, target, subsolution):
        if target == 0:
            solutions.append(subsolution)
        if target < 0:
            return
        for index, number in enumerate(numbers):
            recurse(numbers[index + 1 :], target - number, [*subsolution, number])
    recurse(numbers, target, [])
    return solutions
```

`recurseFor` is the body of the `for` loop: iterating over
`numbers = n :: rest`, it first performs the recursive call
`recurse(rest, target - n, subsolution + [n])` (whose body is inlined so
that the recursion is structural on the list), then continues the loop
over `rest`.  The lemma `recurseFor_cons` below recovers the uninlined
form definitionally. -/

def recurseFor : List Int → Int → List Int → List (List Int)
  | [], _, _ => []
  | n :: rest, target, subsolution =>
    ((if target - n = 0 then [subsolution ++ [n]] else []) ++
      (if target - n < 0 then [] else recurseFor rest (target - n) (subsolution ++ [n]))) ++
    recurseFor rest target subsolution

def recurse (numbers : List Int) (target : Int) (subsolution : List Int) :
    List (List Int) :=
  (if target = 0 then [subsolution] else []) ++
  (if target < 0 then [] else recurseFor numbers target subsolution)

def find_all_solutions (numbers : List Int) (target : Int) : List (List Int) :=
  recurse numbers target []

/-- The loop body of `recurse` really is `recurse` on the suffix followed by
the rest of the loop (the inlining in `recurseFor` is definitional). -/
theorem recurseFor_cons (n : Int) (rest : List Int) (target : Int)
    (subsolution : List Int) :
    recurseFor (n :: rest) target subsolution =
      recurse rest (target - n) (subsolution ++ [n]) ++
        recurseFor rest target subsolution := rfl

/-! ## The DFS enumeration order of sublists

`recurse numbers target sub` emits exactly the sublists (subsequences) of
`numbers` whose sum is `target`, each prefixed by `sub`, in the depth-first
order captured by `sublistsDFS`.  This is proved in
`recurse_eq_filter` below (for lists of nonnegative numbers, which is the
only way the program calls it: board numbers are in [1,9]). -/

def sublistsDFS : List Int → List (List Int)
  | [] => [[]]
  | n :: rest =>
    [] :: ((sublistsDFS rest).map (fun s => n :: s) ++ (sublistsDFS rest).tail)

theorem sublistsDFS_ne_nil (ns : List Int) : sublistsDFS ns ≠ [] := by
  cases ns <;> simp [sublistsDFS]

theorem sublistsDFS_head (ns : List Int) : (sublistsDFS ns).head? = some [] := by
  cases ns <;> simp [sublistsDFS]

theorem sublist_of_mem_sublistsDFS {s ns : List Int} (h : s ∈ sublistsDFS ns) :
    List.Sublist s ns := by
  induction ns generalizing s with
  | nil => simp [sublistsDFS] at h; simp [h]
  | cons n rest ih =>
    simp only [sublistsDFS, List.mem_cons, List.mem_append, List.mem_map] at h
    rcases h with h | ⟨t, ht, rfl⟩ | h
    · simp [h]
    · exact (ih ht).cons₂ n
    · have hmem : s ∈ sublistsDFS rest := by
        have := List.tail_sublist (sublistsDFS rest)
        exact this.subset h
      exact (ih hmem).cons n

theorem mem_sublistsDFS_of_sublist {s ns : List Int} (h : List.Sublist s ns) :
    s ∈ sublistsDFS ns := by
  induction ns generalizing s with
  | nil => simp at h; simp [h, sublistsDFS]
  | cons n rest ih =>
    cases h with
    | cons a h =>
      simp only [sublistsDFS, List.mem_cons, List.mem_append, List.mem_map]
      rcases List.eq_nil_or_concat s with rfl | hx
      · exact Or.inl rfl
      · refine Or.inr (Or.inr ?_)
        have hmem := ih h
        have hne : s ≠ [] := by rcases hx with ⟨l, a, rfl⟩; simp
        rcases hd : sublistsDFS rest with _ | ⟨hd0, tl⟩
        · exact absurd hd (sublistsDFS_ne_nil rest)
        · have h0 : hd0 = [] := by
            have := sublistsDFS_head rest
            rw [hd] at this; simpa using this
          rw [hd] at hmem
          simp only [List.mem_cons] at hmem
          rcases hmem with rfl | hmem
          · exact absurd h0 hne
          · simpa using hmem
    | cons₂ a h =>
      simp only [sublistsDFS, List.mem_cons, List.mem_append, List.mem_map]
      rename_i t
      exact Or.inr (Or.inl ⟨t, ih h, rfl⟩)

theorem mem_sublistsDFS {s ns : List Int} : s ∈ sublistsDFS ns ↔ List.Sublist s ns :=
  ⟨sublist_of_mem_sublistsDFS, mem_sublistsDFS_of_sublist⟩

theorem nodup_sublistsDFS {ns : List Int} (h : ns.Nodup) :
    (sublistsDFS ns).Nodup := by
  induction ns with
  | nil => simp [sublistsDFS]
  | cons n rest ih =>
    have hn : n ∉ rest := (List.nodup_cons.mp h).1
    have hrest : rest.Nodup := (List.nodup_cons.mp h).2
    have ihr := ih hrest
    have htl : (sublistsDFS rest).tail.Nodup := ihr.sublist (List.tail_sublist _)
    have hmapnd : ((sublistsDFS rest).map (fun s => n :: s)).Nodup :=
      ihr.map (fun a b hab => by simpa using hab)
    refine List.nodup_cons.mpr ⟨?_, List.Nodup.append hmapnd htl ?_⟩
    · intro hmem
      rcases List.mem_append.mp hmem with hmem | hmem
      · rcases List.mem_map.mp hmem with ⟨t, _, ht⟩
        exact List.cons_ne_nil n t ht
      · -- [] cannot be in the tail: it is the head and the list is nodup
        rcases hd : sublistsDFS rest with _ | ⟨hd0, tl⟩
        · exact absurd hd (sublistsDFS_ne_nil rest)
        · have h0 : hd0 = [] := by
            have := sublistsDFS_head rest
            rw [hd] at this; simpa using this
          rw [hd] at ihr hmem
          subst h0
          exact (List.nodup_cons.mp ihr).1 (by simpa using hmem)
    · -- the two blocks are disjoint: members of the first start with n,
      -- members of the second are sublists of rest, which omits n
      intro s hs1 hs2
      rcases List.mem_map.mp hs1 with ⟨t, _, rfl⟩
      have hsub : List.Sublist (n :: t) rest := by
        apply sublist_of_mem_sublistsDFS
        exact (List.tail_sublist (sublistsDFS rest)).subset hs2
      exact hn (hsub.subset (List.mem_cons_self n t))

theorem sublistsDFS_eq_cons (ns : List Int) :
    sublistsDFS ns = [] :: (sublistsDFS ns).tail := by
  cases ns <;> rfl

theorem sum_nonneg_of_mem_sublistsDFS_tail {ns : List Int}
    (hnn : ∀ x ∈ ns, 0 ≤ x) {s : List Int} (hs : s ∈ (sublistsDFS ns).tail) :
    0 ≤ s.sum := by
  have hsub : List.Sublist s ns :=
    sublist_of_mem_sublistsDFS ((List.tail_sublist _).subset hs)
  exact List.sum_nonneg fun x hx => hnn x (hsub.subset hx)

/-- If `recurseFor` matches the filtered tail of the DFS enumeration at `ns`,
then `recurse` matches the filtered full enumeration at `ns`. -/
theorem recurse_eq_filter_aux {ns : List Int} (hnn : ∀ x ∈ ns, 0 ≤ x)
    (hB : ∀ t sub, recurseFor ns t sub =
      ((sublistsDFS ns).tail.filter (fun s => s.sum == t)).map (fun s => sub ++ s))
    (t : Int) (sub : List Int) :
    recurse ns t sub =
      ((sublistsDFS ns).filter (fun s => s.sum == t)).map (fun s => sub ++ s) := by
  rw [recurse, sublistsDFS_eq_cons ns, List.filter_cons]
  rcases lt_trichotomy t 0 with ht | ht | ht
  · have h1 : ¬ (t = 0) := by omega
    have h2 : ((List.nil : List Int).sum == t) = false := by
      simp; omega
    rw [h2]
    simp only [if_neg h1, if_pos ht, List.nil_append]
    have : ((sublistsDFS ns).tail.filter (fun s => s.sum == t)) = [] := by
      rw [List.filter_eq_nil_iff]
      intro s hs
      have := sum_nonneg_of_mem_sublistsDFS_tail hnn hs
      simp only [beq_iff_eq]
      omega
    simp [this]
  · subst ht
    simp only [if_pos rfl, if_neg (by omega : ¬ ((0:Int) < 0)), hB]
    simp
  · have h1 : ¬ (t = 0) := by omega
    have h2 : ((List.nil : List Int).sum == t) = false := by
      simp; omega
    rw [h2]
    simp only [if_neg h1, if_neg (by omega : ¬ (t < 0)), hB, List.nil_append]
    simp

theorem recurseFor_eq_filter {ns : List Int} (hnn : ∀ x ∈ ns, 0 ≤ x)
    (t : Int) (sub : List Int) :
    recurseFor ns t sub =
      ((sublistsDFS ns).tail.filter (fun s => s.sum == t)).map (fun s => sub ++ s) := by
  induction ns generalizing t sub with
  | nil => simp [recurseFor, sublistsDFS]
  | cons n rest ih =>
    have hnnr : ∀ x ∈ rest, 0 ≤ x := fun x hx => hnn x (List.mem_cons_of_mem n hx)
    have ihr := fun t sub => ih hnnr t sub
    rw [recurseFor_cons,
      recurse_eq_filter_aux hnnr ihr (t - n) (sub ++ [n]), ihr t sub]
    have htail : (sublistsDFS (n :: rest)).tail =
        (sublistsDFS rest).map (fun s => n :: s) ++ (sublistsDFS rest).tail := rfl
    rw [htail, List.filter_append, List.map_append]
    congr 1
    rw [List.filter_map, List.map_map]
    have hpf : ((fun s : List Int => s.sum == t) ∘ fun s => n :: s) =
        (fun s : List Int => s.sum == t - n) := by
      funext s
      simp only [Function.comp, List.sum_cons, beq_eq_decide]
      exact decide_eq_decide.mpr (by omega)
    rw [hpf]
    congr 1
    funext s
    simp [List.append_assoc]

/-- For nonnegative inputs (the program only ever passes numbers in [1,9]),
`find_all_solutions` is exactly the DFS enumeration of sublists of
`numbers`, filtered to those summing to `target`. -/
theorem find_all_solutions_eq_filter {ns : List Int} (hnn : ∀ x ∈ ns, 0 ≤ x)
    (t : Int) :
    find_all_solutions ns t = (sublistsDFS ns).filter (fun s => s.sum == t) := by
  rw [find_all_solutions,
    recurse_eq_filter_aux hnn (fun t sub => recurseFor_eq_filter hnn t sub) t []]
  simp

theorem mem_find_all_solutions {ns : List Int} (hnn : ∀ x ∈ ns, 0 ≤ x)
    {t : Int} {sol : List Int} :
    sol ∈ find_all_solutions ns t ↔ List.Sublist sol ns ∧ sol.sum = t := by
  rw [find_all_solutions_eq_filter hnn, List.mem_filter, mem_sublistsDFS]
  simp

theorem nodup_find_all_solutions {ns : List Int} (hnd : ns.Nodup)
    (hnn : ∀ x ∈ ns, 0 ≤ x) (t : Int) :
    (find_all_solutions ns t).Nodup := by
  rw [find_all_solutions_eq_filter hnn]
  exact (nodup_sublistsDFS hnd).filter _

/-- Two sublists of a duplicate-free list that are permutations of each
other (i.e. equal as sets) are equal as lists. -/
theorem sublist_eq_of_perm {ns s1 s2 : List Int} (hnd : ns.Nodup)
    (h1 : List.Sublist s1 ns) (h2 : List.Sublist s2 ns) (hp : s1.Perm s2) :
    s1 = s2 := by
  induction ns generalizing s1 s2 with
  | nil =>
    have e1 := List.sublist_nil.mp h1
    have e2 := List.sublist_nil.mp h2
    rw [e1, e2]
  | cons n rest ih =>
    have hn : n ∉ rest := (List.nodup_cons.mp hnd).1
    have hrest : rest.Nodup := (List.nodup_cons.mp hnd).2
    cases h1 with
    | cons a h1 =>
      cases h2 with
      | cons a h2 => exact ih hrest h1 h2 hp
      | cons₂ a h2 =>
        exfalso
        rename_i t2
        have : n ∈ s1 := hp.symm.subset (List.mem_cons_self n t2)
        exact hn (h1.subset this)
    | cons₂ a h1 =>
      rename_i t1
      cases h2 with
      | cons a h2 =>
        exfalso
        have : n ∈ s2 := hp.subset (List.mem_cons_self n t1)
        exact hn (h2.subset this)
      | cons₂ a h2 =>
        rename_i t2
        have := ih hrest h1 h2 (hp.cons_inv)
        rw [this]

/-- Any duplicate-free list whose members all lie in a duplicate-free list
`ns` is a permutation of a sublist of `ns` (namely, of the filter of `ns`
by membership). -/
theorem exists_sublist_perm {ns ans : List Int} (hnd : ns.Nodup)
    (hansnd : ans.Nodup) (hsub : ∀ x ∈ ans, x ∈ ns) :
    ∃ s, List.Sublist s ns ∧ ans.Perm s := by
  refine ⟨ns.filter (fun x => decide (x ∈ ans)), List.filter_sublist ns, ?_⟩
  rw [List.perm_ext_iff_of_nodup hansnd (hnd.filter _)]
  intro a
  simp only [List.mem_filter, decide_eq_true_eq]
  exact ⟨fun ha => ⟨hsub a ha, ha⟩, fun ha => ha.2⟩

/-! ## `LowestFirst.choose_numbers` (src/shut_the_box.py, lines 87-104)

Python:
```
def choose_numbers(self, numbers, roll):
    if roll == 0:
        return True
    for number in numbers:
        if number > roll:
            return False
        self.answer.append(number)
        new_nums = numbers[:]
        new_nums.remove(number)
        if LowestFirst.choose_numbers(self, new_nums, roll - number):
            return True
        self.answer.remove(number)
    return False
```

`lfGo pre pending roll answer` is the `for` loop running over
`numbers = pre ++ pending` with `pending` still to be visited; the
recursive call `LowestFirst.choose_numbers(self, new_nums, roll - number)`
is inlined (one `if roll - number = 0` step) so that each recursive call
strictly decreases `(|numbers|, |pending|)` lexicographically.  The lemma
`lfGo_cons` recovers the uninlined form.  `list.remove` and
`self.answer.remove` remove the first occurrence, i.e. `List.erase`. -/

def lfGo : List Int → List Int → Int → List Int → Bool × List Int
  | _, [], _, answer => (false, answer)
  | pre, number :: rest, roll, answer =>
    if number > roll then (false, answer)
    else
      let res :=
        if roll - number = 0 then (true, answer ++ [number])
        else lfGo [] ((pre ++ number :: rest).erase number) (roll - number)
          (answer ++ [number])
      if res.1 then res
      else lfGo (pre ++ [number]) rest roll (res.2.erase number)
termination_by pre pending _ _ => (pre.length + pending.length, pending.length)
decreasing_by
  · apply Prod.Lex.left
    have hmem : number ∈ pre ++ number :: rest := by simp
    have h1 := List.length_erase_add_one hmem
    simp only [List.length_nil, List.length_append, List.length_cons] at h1 ⊢
    omega
  · simp only [List.length_append, List.length_cons, List.length_nil]
    rw [show pre.length + 1 + rest.length = pre.length + (rest.length + 1) from by omega]
    exact Prod.Lex.right _ (by omega)

def LowestFirst.choose_numbers (numbers : List Int) (roll : Int)
    (answer : List Int) : Bool × List Int :=
  if roll = 0 then (true, answer) else lfGo [] numbers roll answer

/-- The loop body of `LowestFirst.choose_numbers`: the inlining in `lfGo`
is definitional. -/
theorem lfGo_cons (pre rest : List Int) (number roll : Int) (answer : List Int) :
    lfGo pre (number :: rest) roll answer =
      if number > roll then (false, answer)
      else
        let res := LowestFirst.choose_numbers ((pre ++ number :: rest).erase number)
          (roll - number) (answer ++ [number])
        if res.1 then res
        else lfGo (pre ++ [number]) rest roll (res.2.erase number) := by
  rw [lfGo, LowestFirst.choose_numbers]

/-! ## `HighestFirst.choose_numbers` (src/shut_the_box.py, lines 115-134)

Identical structure, but `numbers = sorted(numbers, reverse=True)` is
applied on entry, and a number exceeding the remaining roll is skipped
(`continue`) instead of aborting the loop.  `sorted(·, reverse=True)` is
a stable descending sort, modelled by insertion sort `sortDesc`. -/

def insertDesc (x : Int) : List Int → List Int
  | [] => [x]
  | y :: ys => if y ≤ x then x :: y :: ys else y :: insertDesc x ys

def sortDesc : List Int → List Int
  | [] => []
  | x :: xs => insertDesc x (sortDesc xs)

@[simp] theorem length_insertDesc (x : Int) (l : List Int) :
    (insertDesc x l).length = l.length + 1 := by
  induction l with
  | nil => rfl
  | cons y ys ih => by_cases h : y ≤ x <;> simp [insertDesc, h, ih]

@[simp] theorem length_sortDesc (l : List Int) :
    (sortDesc l).length = l.length := by
  induction l with
  | nil => rfl
  | cons x xs ih => simp [sortDesc, ih]

theorem perm_insertDesc (x : Int) (l : List Int) :
    (insertDesc x l).Perm (x :: l) := by
  induction l with
  | nil => rfl
  | cons y ys ih =>
    by_cases h : y ≤ x
    · simp [insertDesc, h]
    · simp only [insertDesc, if_neg h]
      exact (ih.cons y).trans (List.Perm.swap x y ys)

theorem perm_sortDesc (l : List Int) : (sortDesc l).Perm l := by
  induction l with
  | nil => rfl
  | cons x xs ih => exact (perm_insertDesc x (sortDesc xs)).trans (ih.cons x)

theorem mem_sortDesc {x : Int} {l : List Int} : x ∈ sortDesc l ↔ x ∈ l :=
  (perm_sortDesc l).mem_iff

theorem nodup_sortDesc {l : List Int} (h : l.Nodup) : (sortDesc l).Nodup :=
  ((perm_sortDesc l).nodup_iff).mpr h

def hfGo : List Int → List Int → Int → List Int → Bool × List Int
  | _, [], _, answer => (false, answer)
  | pre, number :: rest, roll, answer =>
    if number > roll then hfGo (pre ++ [number]) rest roll answer
    else
      let res :=
        if roll - number = 0 then (true, answer ++ [number])
        else hfGo [] (sortDesc ((pre ++ number :: rest).erase number)) (roll - number)
          (answer ++ [number])
      if res.1 then res
      else hfGo (pre ++ [number]) rest roll (res.2.erase number)
termination_by pre pending _ _ => (pre.length + pending.length, pending.length)
decreasing_by
  · simp only [List.length_append, List.length_cons, List.length_nil]
    rw [show pre.length + 1 + rest.length = pre.length + (rest.length + 1) from by omega]
    exact Prod.Lex.right _ (by omega)
  · apply Prod.Lex.left
    have hmem : number ∈ pre ++ number :: rest := by simp
    have h1 := List.length_erase_add_one hmem
    simp only [List.length_nil, List.length_append, List.length_cons,
      length_sortDesc] at h1 ⊢
    omega
  · simp only [List.length_append, List.length_cons, List.length_nil]
    rw [show pre.length + 1 + rest.length = pre.length + (rest.length + 1) from by omega]
    exact Prod.Lex.right _ (by omega)

def HighestFirst.choose_numbers (numbers : List Int) (roll : Int)
    (answer : List Int) : Bool × List Int :=
  if roll = 0 then (true, answer) else hfGo [] (sortDesc numbers) roll answer

theorem hfGo_cons (pre rest : List Int) (number roll : Int) (answer : List Int) :
    hfGo pre (number :: rest) roll answer =
      if number > roll then hfGo (pre ++ [number]) rest roll answer
      else
        let res := HighestFirst.choose_numbers ((pre ++ number :: rest).erase number)
          (roll - number) (answer ++ [number])
        if res.1 then res
        else hfGo (pre ++ [number]) rest roll (res.2.erase number) := by
  rw [hfGo, HighestFirst.choose_numbers]

/-! ## `ExactThenLowest` / `ExactThenHighest` (lines 145-150, 161-166)

These methods return no useful value in Python (only the `answer` state
matters), so they are modelled as returning the new `answer`. -/

def ExactThenLowest.choose_numbers (numbers : List Int) (roll : Int)
    (answer : List Int) : List Int :=
  if roll ∈ numbers then answer ++ [roll]
  else (LowestFirst.choose_numbers numbers roll answer).2

def ExactThenHighest.choose_numbers (numbers : List Int) (roll : Int)
    (answer : List Int) : List Int :=
  if roll ∈ numbers then answer ++ [roll]
  else (HighestFirst.choose_numbers numbers roll answer).2

/-! ## `Random.choose_numbers` (lines 177-183)

`choice(solutions)` picks a random element of the non-empty list
`solutions`; the random draw is modelled by an arbitrary index `pick`
(reduced modulo the length), so theorems quantifying over `pick` cover
every possible random outcome. -/

def Random.choose_numbers (pick : Nat) (numbers : List Int) (roll : Int)
    (answer : List Int) : List Int :=
  let solutions := find_all_solutions numbers roll
  if solutions.isEmpty then answer
  else solutions.getD (pick % solutions.length) []

/-! ## `Strategy` and `SolutionLength` abstract bases (lines 75-76, 228-229)

Both `choose_numbers` bodies are `raise NotImplementedError`; the raised
exception is modelled as an `Except.error`. -/

def Strategy.choose_numbers (numbers : List Int) (roll : Int) :
    Except String (List Int) :=
  Except.error "NotImplementedError"

def SolutionLength.choose_numbers (secondary_strategy : List Int → Int)
    (numbers : List Int) (roll : Int) : Except String (List Int) :=
  Except.error "NotImplementedError"

/-! ## `FewestNumbers` / `MostNumbers` (lines 240-250, 261-271)

Python's `sorted(candidates, key=...)` is a stable sort by the key; it is
modelled by insertion sort ordered by the key, and `[0]` by `headI`
(the candidate list is non-empty whenever it is taken). -/

def sortByKey (key : List Int → Int) (l : List (List Int)) : List (List Int) :=
  List.insertionSort (fun a b => key a ≤ key b) l

def FewestNumbers.choose_numbers (secondary_strategy : List Int → Int)
    (numbers : List Int) (roll : Int) (answer : List Int) : List Int :=
  let solutions := find_all_solutions numbers roll
  match solutions with
  | [] => answer
  | s :: ss =>
    let shortest_solution_length := (ss.map List.length).foldl Nat.min s.length
    (sortByKey secondary_strategy
      ((s :: ss).filter (fun sol => sol.length == shortest_solution_length))).headI

def MostNumbers.choose_numbers (secondary_strategy : List Int → Int)
    (numbers : List Int) (roll : Int) (answer : List Int) : List Int :=
  let solutions := find_all_solutions numbers roll
  match solutions with
  | [] => answer
  | s :: ss =>
    let longest_solution_length := (ss.map List.length).foldl Nat.max s.length
    (sortByKey secondary_strategy
      ((s :: ss).filter (fun sol => sol.length == longest_solution_length))).headI

/-! ## The game loop (src/shut_the_box.py, lines 32-64)

`Game.play` repeatedly: removes the chosen numbers, resets the answer,
rolls, and asks the strategy again, while `self.numbers and
self.strategy.answer` are both non-empty.  The strategy is abstracted as
a function `choose : numbers → roll → answer` (called with the answer
state already reset to `[]`), the rolls as a sequence `rolls : Nat → Int`
of die-sum outcomes, and the loop as a fuel-indexed recursion (fuel 10
suffices for the 9-number board, as proved for the game-loop claim). -/

def Game.initialNumbers : List Int := [1, 2, 3, 4, 5, 6, 7, 8, 9]

def removeNumbers (numbers answer : List Int) : List Int :=
  answer.foldl (fun acc number => acc.erase number) numbers

def Game.playAux (choose : List Int → Int → List Int) (rolls : Nat → Int) :
    Nat → Nat → List Int → List Int → List Int × List Int
  | 0, _, numbers, answer => (numbers, answer)
  | fuel + 1, i, numbers, answer =>
    if numbers = [] ∨ answer = [] then (numbers, answer)
    else
      Game.playAux choose rolls fuel (i + 1) (removeNumbers numbers answer)
        (choose (removeNumbers numbers answer) (rolls i))

def Game.play (choose : List Int → Int → List Int) (rolls : Nat → Int) :
    List Int × List Int :=
  Game.playAux choose rolls 10 1 Game.initialNumbers
    (choose Game.initialNumbers (rolls 0))

def Game.score (numbers : List Int) : Int := numbers.sum

/-! ## Soundness and backtracking atomicity of the greedy searches -/

theorem lfGo_nil (pre : List Int) (roll : Int) (answer : List Int) :
    lfGo pre [] roll answer = (false, answer) := by
  rw [lfGo]

theorem hfGo_nil (pre : List Int) (roll : Int) (answer : List Int) :
    hfGo pre [] roll answer = (false, answer) := by
  rw [hfGo]

theorem append_singleton_erase {a : List Int} {n : Int} (h : n ∉ a) :
    (a ++ [n]).erase n = a := by
  rw [List.erase_append_right _ h, List.erase_cons_head, List.append_nil]

/-- Joint soundness / atomicity invariant for the `LowestFirst` search loop:
on failure the answer is restored exactly; on success the answer is extended
by a duplicate-free block of numbers from the pool summing to the roll. -/
theorem lfGo_spec (T : Nat) : ∀ pre pending : List Int,
    pre.length + pending.length ≤ T →
    ∀ (roll : Int) (answer : List Int), (pre ++ pending).Nodup →
    (∀ x ∈ pre ++ pending, x ∉ answer) →
    ((lfGo pre pending roll answer).1 = false →
      (lfGo pre pending roll answer).2 = answer) ∧
    ((lfGo pre pending roll answer).1 = true →
      ∃ ext, (lfGo pre pending roll answer).2 = answer ++ ext ∧
        ext.Nodup ∧ (∀ x ∈ ext, x ∈ pre ++ pending) ∧ ext.sum = roll) := by
  induction T with
  | zero =>
    intro pre pending hT roll answer _ _
    have hpend : pending = [] := by
      cases pending with
      | nil => rfl
      | cons a l => simp at hT
    subst hpend
    simp [lfGo_nil]
  | succ T ihT =>
    intro pre pending
    induction pending generalizing pre with
    | nil =>
      intro _ roll answer _ _
      simp [lfGo_nil]
    | cons number rest ihP =>
      intro hT roll answer hnd hdisj
      rw [lfGo_cons]
      by_cases hgt : number > roll
      · simp [hgt]
      · simp only [if_neg hgt]
        set newNums := (pre ++ number :: rest).erase number with hnew
        have hmemn : number ∈ pre ++ number :: rest := by simp
        have hlen : newNums.length + 1 = (pre ++ number :: rest).length :=
          List.length_erase_add_one hmemn
        have hndNew : newNums.Nodup := hnd.erase number
        have hsubNew : ∀ x ∈ newNums, x ∈ pre ++ number :: rest :=
          fun x hx => (List.erase_sublist number (pre ++ number :: rest)).subset hx
        have hNotn : ∀ x ∈ newNums, x ≠ number := by
          intro x hx
          exact ((List.Nodup.mem_erase_iff hnd).mp hx).1
        have hnumNotA : number ∉ answer := hdisj number hmemn
        have hdisjNew : ∀ x ∈ newNums, x ∉ answer ++ [number] := by
          intro x hx
          simp only [List.mem_append, List.mem_singleton]
          push_neg
          exact ⟨hdisj x (hsubNew x hx), hNotn x hx⟩
        -- analysis of res = LowestFirst.choose_numbers newNums (roll - number) ...
        have hres : ((LowestFirst.choose_numbers newNums (roll - number)
              (answer ++ [number])).1 = false →
            (LowestFirst.choose_numbers newNums (roll - number)
              (answer ++ [number])).2 = answer ++ [number]) ∧
            ((LowestFirst.choose_numbers newNums (roll - number)
              (answer ++ [number])).1 = true →
            ∃ ext, (LowestFirst.choose_numbers newNums (roll - number)
                (answer ++ [number])).2 = (answer ++ [number]) ++ ext ∧
              ext.Nodup ∧ (∀ x ∈ ext, x ∈ newNums) ∧ ext.sum = roll - number) := by
          rw [LowestFirst.choose_numbers]
          by_cases hz : roll - number = 0
          · simp only [if_pos hz]
            refine ⟨by simp, fun _ => ⟨[], by simp, by simp, by simp, by simpa using hz.symm⟩⟩
          · simp only [if_neg hz]
            have hTn : ([] : List Int).length + newNums.length ≤ T := by
              simp only [List.length_nil, Nat.zero_add]
              have : (pre ++ number :: rest).length ≤ T + 1 := by
                simpa [List.length_append] using hT
              omega
            have := ihT [] newNums hTn (roll - number) (answer ++ [number])
              (by simpa using hndNew) (by simpa using hdisjNew)
            simpa using this
        set res := LowestFirst.choose_numbers newNums (roll - number)
          (answer ++ [number]) with hresdef
        by_cases hb : res.1 = true
        · rw [if_pos hb]
          refine ⟨by simp [hb], fun _ => ?_⟩
          rcases hres.2 hb with ⟨ext, he2, hend, hemem, hesum⟩
          refine ⟨number :: ext, ?_, ?_, ?_, ?_⟩
          · rw [he2, List.append_assoc]
            rfl
          · exact List.nodup_cons.mpr ⟨fun hc => (hNotn number (hemem number hc)) rfl, hend⟩
          · intro x hx
            rcases List.mem_cons.mp hx with rfl | hx
            · exact hmemn
            · exact hsubNew x (hemem x hx)
          · simp only [List.sum_cons, hesum]
            omega
        · have hbf : res.1 = false := by
            cases hq : res.1
            · rfl
            · exact absurd hq hb
          rw [if_neg hb]
          have hr2 : res.2 = answer ++ [number] := hres.1 hbf
          have hr2e : res.2.erase number = answer := by
            rw [hr2, append_singleton_erase hnumNotA]
          rw [hr2e]
          have hassoc : (pre ++ [number]) ++ rest = pre ++ number :: rest := by
            simp
          have := ihP (pre ++ [number])
            (by simp only [List.length_append, List.length_cons, List.length_nil] at hT ⊢; omega)
            roll answer
            (by rw [hassoc]; exact hnd) (by rw [hassoc]; exact hdisj)
          rw [hassoc] at this
          exact this

/-- The same invariant for the `HighestFirst` search loop. -/
theorem hfGo_spec (T : Nat) : ∀ pre pending : List Int,
    pre.length + pending.length ≤ T →
    ∀ (roll : Int) (answer : List Int), (pre ++ pending).Nodup →
    (∀ x ∈ pre ++ pending, x ∉ answer) →
    ((hfGo pre pending roll answer).1 = false →
      (hfGo pre pending roll answer).2 = answer) ∧
    ((hfGo pre pending roll answer).1 = true →
      ∃ ext, (hfGo pre pending roll answer).2 = answer ++ ext ∧
        ext.Nodup ∧ (∀ x ∈ ext, x ∈ pre ++ pending) ∧ ext.sum = roll) := by
  induction T with
  | zero =>
    intro pre pending hT roll answer _ _
    have hpend : pending = [] := by
      cases pending with
      | nil => rfl
      | cons a l => simp at hT
    subst hpend
    simp [hfGo_nil]
  | succ T ihT =>
    intro pre pending
    induction pending generalizing pre with
    | nil =>
      intro _ roll answer _ _
      simp [hfGo_nil]
    | cons number rest ihP =>
      intro hT roll answer hnd hdisj
      rw [hfGo_cons]
      have hassoc : (pre ++ [number]) ++ rest = pre ++ number :: rest := by
        simp
      by_cases hgt : number > roll
      · simp only [if_pos hgt]
        have := ihP (pre ++ [number])
          (by simp only [List.length_append, List.length_cons, List.length_nil] at hT ⊢; omega)
            roll answer
          (by rw [hassoc]; exact hnd) (by rw [hassoc]; exact hdisj)
        rw [hassoc] at this
        exact this
      · simp only [if_neg hgt]
        set newNums := (pre ++ number :: rest).erase number with hnew
        have hmemn : number ∈ pre ++ number :: rest := by simp
        have hlen : newNums.length + 1 = (pre ++ number :: rest).length :=
          List.length_erase_add_one hmemn
        have hndNew : newNums.Nodup := hnd.erase number
        have hsubNew : ∀ x ∈ newNums, x ∈ pre ++ number :: rest :=
          fun x hx => (List.erase_sublist number (pre ++ number :: rest)).subset hx
        have hNotn : ∀ x ∈ newNums, x ≠ number := by
          intro x hx
          exact ((List.Nodup.mem_erase_iff hnd).mp hx).1
        have hnumNotA : number ∉ answer := hdisj number hmemn
        have hdisjNew : ∀ x ∈ sortDesc newNums, x ∉ answer ++ [number] := by
          intro x hx
          rw [mem_sortDesc] at hx
          simp only [List.mem_append, List.mem_singleton]
          push_neg
          exact ⟨hdisj x (hsubNew x hx), hNotn x hx⟩
        have hres : ((HighestFirst.choose_numbers newNums (roll - number)
              (answer ++ [number])).1 = false →
            (HighestFirst.choose_numbers newNums (roll - number)
              (answer ++ [number])).2 = answer ++ [number]) ∧
            ((HighestFirst.choose_numbers newNums (roll - number)
              (answer ++ [number])).1 = true →
            ∃ ext, (HighestFirst.choose_numbers newNums (roll - number)
                (answer ++ [number])).2 = (answer ++ [number]) ++ ext ∧
              ext.Nodup ∧ (∀ x ∈ ext, x ∈ newNums) ∧ ext.sum = roll - number) := by
          rw [HighestFirst.choose_numbers]
          by_cases hz : roll - number = 0
          · simp only [if_pos hz]
            refine ⟨by simp, fun _ => ⟨[], by simp, by simp, by simp, by simpa using hz.symm⟩⟩
          · simp only [if_neg hz]
            have hTn : ([] : List Int).length + (sortDesc newNums).length ≤ T := by
              simp only [List.length_nil, Nat.zero_add, length_sortDesc]
              have : (pre ++ number :: rest).length ≤ T + 1 := by
                simpa [List.length_append] using hT
              omega
            have := ihT [] (sortDesc newNums) hTn (roll - number) (answer ++ [number])
              (by simpa using nodup_sortDesc hndNew) (by simpa using hdisjNew)
            simp only [List.nil_append] at this
            refine ⟨this.1, fun ht => ?_⟩
            rcases this.2 ht with ⟨ext, he2, hend, hemem, hesum⟩
            exact ⟨ext, he2, hend, fun x hx => mem_sortDesc.mp (hemem x hx), hesum⟩
        set res := HighestFirst.choose_numbers newNums (roll - number)
          (answer ++ [number]) with hresdef
        by_cases hb : res.1 = true
        · rw [if_pos hb]
          refine ⟨by simp [hb], fun _ => ?_⟩
          rcases hres.2 hb with ⟨ext, he2, hend, hemem, hesum⟩
          refine ⟨number :: ext, ?_, ?_, ?_, ?_⟩
          · rw [he2, List.append_assoc]
            rfl
          · exact List.nodup_cons.mpr ⟨fun hc => (hNotn number (hemem number hc)) rfl, hend⟩
          · intro x hx
            rcases List.mem_cons.mp hx with rfl | hx
            · exact hmemn
            · exact hsubNew x (hemem x hx)
          · simp only [List.sum_cons, hesum]
            omega
        · have hbf : res.1 = false := by
            cases hq : res.1
            · rfl
            · exact absurd hq hb
          rw [if_neg hb]
          have hr2 : res.2 = answer ++ [number] := hres.1 hbf
          have hr2e : res.2.erase number = answer := by
            rw [hr2, append_singleton_erase hnumNotA]
          rw [hr2e]
          have := ihP (pre ++ [number])
            (by simp only [List.length_append, List.length_cons, List.length_nil] at hT ⊢; omega)
            roll answer
            (by rw [hassoc]; exact hnd) (by rw [hassoc]; exact hdisj)
          rw [hassoc] at this
          exact this

/-- Method-level soundness/atomicity for `LowestFirst.choose_numbers`. -/
theorem LowestFirst_spec {numbers : List Int} {roll : Int} {answer : List Int}
    (hnd : numbers.Nodup) (hdisj : ∀ x ∈ numbers, x ∉ answer) :
    ((LowestFirst.choose_numbers numbers roll answer).1 = false →
      (LowestFirst.choose_numbers numbers roll answer).2 = answer) ∧
    ((LowestFirst.choose_numbers numbers roll answer).1 = true →
      ∃ ext, (LowestFirst.choose_numbers numbers roll answer).2 = answer ++ ext ∧
        ext.Nodup ∧ (∀ x ∈ ext, x ∈ numbers) ∧ ext.sum = roll) := by
  rw [LowestFirst.choose_numbers]
  by_cases hz : roll = 0
  · simp only [if_pos hz]
    exact ⟨by simp, fun _ => ⟨[], by simp, by simp, by simp, by simp [hz]⟩⟩
  · simp only [if_neg hz]
    have := lfGo_spec (numbers.length) [] numbers (by simp) roll answer
      (by simpa using hnd) (by simpa using hdisj)
    simpa using this

/-- Method-level soundness/atomicity for `HighestFirst.choose_numbers`. -/
theorem HighestFirst_spec {numbers : List Int} {roll : Int} {answer : List Int}
    (hnd : numbers.Nodup) (hdisj : ∀ x ∈ numbers, x ∉ answer) :
    ((HighestFirst.choose_numbers numbers roll answer).1 = false →
      (HighestFirst.choose_numbers numbers roll answer).2 = answer) ∧
    ((HighestFirst.choose_numbers numbers roll answer).1 = true →
      ∃ ext, (HighestFirst.choose_numbers numbers roll answer).2 = answer ++ ext ∧
        ext.Nodup ∧ (∀ x ∈ ext, x ∈ numbers) ∧ ext.sum = roll) := by
  rw [HighestFirst.choose_numbers]
  by_cases hz : roll = 0
  · simp only [if_pos hz]
    exact ⟨by simp, fun _ => ⟨[], by simp, by simp, by simp, by simp [hz]⟩⟩
  · simp only [if_neg hz]
    have := hfGo_spec (numbers.length) [] (sortDesc numbers)
      (by simp) roll answer
      (by simpa using nodup_sortDesc hnd)
      (by simpa using fun x hx => hdisj x (mem_sortDesc.mp hx))
    simp only [List.nil_append] at this
    refine ⟨this.1, fun ht => ?_⟩
    rcases this.2 ht with ⟨ext, he2, hend, hemem, hesum⟩
    exact ⟨ext, he2, hend, fun x hx => mem_sortDesc.mp (hemem x hx), hesum⟩

/-! ## Completeness of the greedy searches

`LowestFirst` aborts its loop at the first number exceeding the remaining
roll (`return False`), which only finds every existing solution when the
numbers are in ascending order.  `HighestFirst` merely skips such numbers
(`continue`), so it is complete for any input order. -/

theorem sum_pos_ne_nil {s : List Int} (h1 : ∀ x ∈ s, 1 ≤ x) {r : Int}
    (hsum : s.sum = r) (hr : r ≠ 0) : s ≠ [] := by
  intro hc
  subst hc
  simp at hsum
  exact hr hsum.symm

/-- If the pool `pre ++ pending` is sorted ascending and some still-pending
number `m` starts a solution, the `LowestFirst` loop succeeds. -/
theorem lfGo_complete (T : Nat) : ∀ pre pending : List Int,
    pre.length + pending.length ≤ T →
    (pre ++ pending).Nodup →
    (∀ x ∈ pre ++ pending, 1 ≤ x) →
    List.Sorted (· ≤ ·) (pre ++ pending) →
    ∀ (roll : Int) (answer : List Int) (m : Int), m ∈ pending → m ≤ roll →
    (∃ s : List Int, s.Nodup ∧ (∀ x ∈ s, x ∈ (pre ++ pending).erase m) ∧
      s.sum = roll - m) →
    (lfGo pre pending roll answer).1 = true := by
  induction T with
  | zero =>
    intro pre pending hT _ _ _ roll answer m hm _ _
    have hpend : pending = [] := by
      cases pending with
      | nil => rfl
      | cons a l => simp at hT
    rw [hpend] at hm
    simp at hm
  | succ T ihT =>
    intro pre pending
    induction pending generalizing pre with
    | nil =>
      intro _ _ _ _ roll answer m hm _ _
      simp at hm
    | cons n rest ihP =>
      intro hT hnd h1 hsort roll answer m hm hmr hsol
      have hsortPend : List.Sorted (· ≤ ·) (n :: rest) :=
        hsort.sublist (List.sublist_append_right pre (n :: rest))
      have hnm : n ≤ m := by
        rcases List.mem_cons.mp hm with rfl | hm
        · exact le_refl m
        · exact (List.sorted_cons.mp hsortPend).1 m hm
      rw [lfGo_cons]
      have hgt : ¬ (n > roll) := by omega
      simp only [if_neg hgt]
      set newNums := (pre ++ n :: rest).erase n with hnew
      set res := LowestFirst.choose_numbers newNums (roll - n) (answer ++ [n])
        with hres
      by_cases hb : res.1 = true
      · rw [if_pos hb]
        exact hb
      · rw [if_neg hb]
        -- the branch for n failed; the witness m cannot be n itself
        by_cases hmn : m = n
        · exfalso
          subst hmn
          apply hb
          rcases hsol with ⟨s, hsnd, hsmem, hssum⟩
          rw [hres, LowestFirst.choose_numbers]
          by_cases hz : roll - m = 0
          · simp [hz]
          · simp only [if_neg hz]
            have h1new : ∀ x ∈ newNums, 1 ≤ x := fun x hx =>
              h1 x ((List.erase_sublist m (pre ++ m :: rest)).subset hx)
            have hs1 : ∀ x ∈ s, 1 ≤ x := fun x hx => h1new x (hsmem x hx)
            have hrm : 0 ≤ roll - m := by omega
            have hsne : s ≠ [] := sum_pos_ne_nil hs1 hssum hz
            rcases List.exists_cons_of_ne_nil hsne with ⟨m2, s2, rfl⟩
            have hm2 : m2 ∈ newNums := hsmem m2 (List.mem_cons_self m2 s2)
            have hs2sum : s2.sum = roll - m - m2 := by
              have := hssum
              simp only [List.sum_cons] at this
              omega
            have hm2le : m2 ≤ roll - m := by
              have hs2nn : 0 ≤ s2.sum :=
                List.sum_nonneg fun x hx => by
                  have := hs1 x (List.mem_cons_of_mem m2 hx)
                  omega
              omega
            have hTn : ([] : List Int).length + newNums.length ≤ T := by
              have hmm : m ∈ pre ++ m :: rest := by simp
              have := List.length_erase_add_one hmm
              simp only [List.length_nil, Nat.zero_add, hnew]
              simp only [List.length_append, List.length_cons] at this hT ⊢
              omega
            apply ihT [] newNums hTn (by simpa using hnd.erase m)
              (by simpa using h1new)
              (by simpa using hsort.sublist (List.erase_sublist m _))
              (roll - m) (answer ++ [m]) m2 hm2 hm2le
            refine ⟨s2, (List.nodup_cons.mp hsnd).2, ?_, by simpa using hs2sum⟩
            intro x hx
            have hxnew : x ∈ newNums := hsmem x (List.mem_cons_of_mem m2 hx)
            have hxne : x ≠ m2 := by
              intro hc
              subst hc
              exact (List.nodup_cons.mp hsnd).1 hx
            simpa using (List.mem_erase_of_ne hxne).mpr hxnew
        · -- m is still pending in rest; continue the loop
          have hmrest : m ∈ rest := by
            rcases List.mem_cons.mp hm with rfl | hm2
            · exact absurd rfl hmn
            · exact hm2
          have hassoc : (pre ++ [n]) ++ rest = pre ++ n :: rest := by simp
          apply ihP (pre ++ [n])
            (by simp only [List.length_append, List.length_cons,
              List.length_nil] at hT ⊢; omega)
            (by rw [hassoc]; exact hnd) (by rw [hassoc]; exact h1)
            (by rw [hassoc]; exact hsort) roll _ m hmrest hmr
          rw [hassoc]
          exact hsol

/-- Method-level completeness for `LowestFirst.choose_numbers` on
ascending-sorted input: if any duplicate-free selection from `numbers`
sums to the roll, the search succeeds. -/
theorem LowestFirst_complete {numbers : List Int} {roll : Int}
    (answer : List Int) (hnd : numbers.Nodup) (h1 : ∀ x ∈ numbers, 1 ≤ x)
    (hsort : List.Sorted (· ≤ ·) numbers)
    (hsol : ∃ s : List Int, s.Nodup ∧ (∀ x ∈ s, x ∈ numbers) ∧ s.sum = roll) :
    (LowestFirst.choose_numbers numbers roll answer).1 = true := by
  rw [LowestFirst.choose_numbers]
  by_cases hz : roll = 0
  · simp [hz]
  · simp only [if_neg hz]
    rcases hsol with ⟨s, hsnd, hsmem, hssum⟩
    have hs1 : ∀ x ∈ s, 1 ≤ x := fun x hx => h1 x (hsmem x hx)
    have hsne : s ≠ [] := sum_pos_ne_nil hs1 hssum hz
    rcases List.exists_cons_of_ne_nil hsne with ⟨m, s2, rfl⟩
    have hm : m ∈ numbers := hsmem m (List.mem_cons_self m s2)
    have hs2sum : s2.sum = roll - m := by
      simp only [List.sum_cons] at hssum
      omega
    have hmle : m ≤ roll := by
      have hs2nn : 0 ≤ s2.sum :=
        List.sum_nonneg fun x hx => by
          have := hs1 x (List.mem_cons_of_mem m hx)
          omega
      omega
    apply lfGo_complete numbers.length [] numbers (by simp)
      (by simpa using hnd) (by simpa using h1) (by simpa using hsort)
      roll answer m hm hmle
    refine ⟨s2, (List.nodup_cons.mp hsnd).2, ?_, by simpa using hs2sum⟩
    intro x hx
    have hxne : x ≠ m := by
      intro hc
      subst hc
      exact (List.nodup_cons.mp hsnd).1 hx
    simpa using (List.mem_erase_of_ne hxne).mpr (hsmem x (List.mem_cons_of_mem m hx))

/-- If some still-pending number `m` starts a solution, the `HighestFirst`
loop succeeds — no ordering assumption is needed, because an oversized
number is skipped rather than aborting the loop. -/
theorem hfGo_complete (T : Nat) : ∀ pre pending : List Int,
    pre.length + pending.length ≤ T →
    (pre ++ pending).Nodup →
    (∀ x ∈ pre ++ pending, 1 ≤ x) →
    ∀ (roll : Int) (answer : List Int) (m : Int), m ∈ pending → m ≤ roll →
    (∃ s : List Int, s.Nodup ∧ (∀ x ∈ s, x ∈ (pre ++ pending).erase m) ∧
      s.sum = roll - m) →
    (hfGo pre pending roll answer).1 = true := by
  induction T with
  | zero =>
    intro pre pending hT _ _ roll answer m hm _ _
    have hpend : pending = [] := by
      cases pending with
      | nil => rfl
      | cons a l => simp at hT
    rw [hpend] at hm
    simp at hm
  | succ T ihT =>
    intro pre pending
    induction pending generalizing pre with
    | nil =>
      intro _ _ _ roll answer m hm _ _
      simp at hm
    | cons n rest ihP =>
      intro hT hnd h1 roll answer m hm hmr hsol
      rw [hfGo_cons]
      have hassoc : (pre ++ [n]) ++ rest = pre ++ n :: rest := by simp
      have hTstep : (pre ++ [n]).length + rest.length ≤ T + 1 := by
        simp only [List.length_append, List.length_cons, List.length_nil] at hT ⊢
        omega
      by_cases hgt : n > roll
      · -- n is skipped; m cannot be n since m ≤ roll < n
        rw [if_pos hgt]
        have hmrest : m ∈ rest := by
          rcases List.mem_cons.mp hm with rfl | hm2
          · omega
          · exact hm2
        apply ihP (pre ++ [n]) hTstep
          (by rw [hassoc]; exact hnd) (by rw [hassoc]; exact h1)
          roll _ m hmrest hmr
        rw [hassoc]
        exact hsol
      · rw [if_neg hgt]
        set newNums := (pre ++ n :: rest).erase n with hnew
        set res := HighestFirst.choose_numbers newNums (roll - n) (answer ++ [n])
          with hres
        by_cases hb : res.1 = true
        · rw [if_pos hb]
          exact hb
        · rw [if_neg hb]
          by_cases hmn : m = n
          · exfalso
            subst hmn
            apply hb
            rcases hsol with ⟨s, hsnd, hsmem, hssum⟩
            rw [hres, HighestFirst.choose_numbers]
            by_cases hz : roll - m = 0
            · simp [hz]
            · simp only [if_neg hz]
              have h1new : ∀ x ∈ newNums, 1 ≤ x := fun x hx =>
                h1 x ((List.erase_sublist m (pre ++ m :: rest)).subset hx)
              have hs1 : ∀ x ∈ s, 1 ≤ x := fun x hx => h1new x (hsmem x hx)
              have hsne : s ≠ [] := sum_pos_ne_nil hs1 hssum hz
              rcases List.exists_cons_of_ne_nil hsne with ⟨m2, s2, rfl⟩
              have hm2 : m2 ∈ sortDesc newNums :=
                mem_sortDesc.mpr (hsmem m2 (List.mem_cons_self m2 s2))
              have hs2sum : s2.sum = roll - m - m2 := by
                simp only [List.sum_cons] at hssum
                omega
              have hm2le : m2 ≤ roll - m := by
                have hs2nn : 0 ≤ s2.sum :=
                  List.sum_nonneg fun x hx => by
                    have := hs1 x (List.mem_cons_of_mem m2 hx)
                    omega
                omega
              have hTn : ([] : List Int).length + (sortDesc newNums).length ≤ T := by
                have hmm : m ∈ pre ++ m :: rest := by simp
                have := List.length_erase_add_one hmm
                simp only [List.length_nil, Nat.zero_add, length_sortDesc, hnew]
                simp only [List.length_append, List.length_cons] at this hT ⊢
                omega
              apply ihT [] (sortDesc newNums) hTn
                (by simpa using nodup_sortDesc (hnd.erase m))
                (by simpa using fun x hx => h1new x (mem_sortDesc.mp hx))
                (roll - m) (answer ++ [m]) m2 hm2 hm2le
              refine ⟨s2, (List.nodup_cons.mp hsnd).2, ?_, by simpa using hs2sum⟩
              intro x hx
              have hxnew : x ∈ sortDesc newNums :=
                mem_sortDesc.mpr (hsmem x (List.mem_cons_of_mem m2 hx))
              have hxne : x ≠ m2 := by
                intro hc
                subst hc
                exact (List.nodup_cons.mp hsnd).1 hx
              simpa using (List.mem_erase_of_ne hxne).mpr hxnew
          · have hmrest : m ∈ rest := by
              rcases List.mem_cons.mp hm with rfl | hm2
              · exact absurd rfl hmn
              · exact hm2
            apply ihP (pre ++ [n]) hTstep
              (by rw [hassoc]; exact hnd) (by rw [hassoc]; exact h1)
              roll _ m hmrest hmr
            rw [hassoc]
            exact hsol

/-- Method-level completeness for `HighestFirst.choose_numbers`, for any
input order: if any duplicate-free selection from `numbers` sums to the
roll, the search succeeds. -/
theorem HighestFirst_complete {numbers : List Int} {roll : Int}
    (answer : List Int) (hnd : numbers.Nodup) (h1 : ∀ x ∈ numbers, 1 ≤ x)
    (hsol : ∃ s : List Int, s.Nodup ∧ (∀ x ∈ s, x ∈ numbers) ∧ s.sum = roll) :
    (HighestFirst.choose_numbers numbers roll answer).1 = true := by
  rw [HighestFirst.choose_numbers]
  by_cases hz : roll = 0
  · simp [hz]
  · simp only [if_neg hz]
    rcases hsol with ⟨s, hsnd, hsmem, hssum⟩
    have hs1 : ∀ x ∈ s, 1 ≤ x := fun x hx => h1 x (hsmem x hx)
    have hsne : s ≠ [] := sum_pos_ne_nil hs1 hssum hz
    rcases List.exists_cons_of_ne_nil hsne with ⟨m, s2, rfl⟩
    have hm : m ∈ sortDesc numbers := mem_sortDesc.mpr (hsmem m (List.mem_cons_self m s2))
    have hs2sum : s2.sum = roll - m := by
      simp only [List.sum_cons] at hssum
      omega
    have hmle : m ≤ roll := by
      have hs2nn : 0 ≤ s2.sum :=
        List.sum_nonneg fun x hx => by
          have := hs1 x (List.mem_cons_of_mem m hx)
          omega
      omega
    apply hfGo_complete numbers.length [] (sortDesc numbers) (by simp)
      (by simpa using nodup_sortDesc hnd)
      (by simpa using fun x hx => h1 x (mem_sortDesc.mp hx))
      roll answer m hm hmle
    refine ⟨s2, (List.nodup_cons.mp hsnd).2, ?_, by simpa using hs2sum⟩
    intro x hx
    have hxne : x ≠ m := by
      intro hc
      subst hc
      exact (List.nodup_cons.mp hsnd).1 hx
    simpa using (List.mem_erase_of_ne hxne).mpr
      (mem_sortDesc.mpr (hsmem x (List.mem_cons_of_mem m hx)))

/-! ## Folded minimum / maximum (Python `min(...)` / `max(...)` over a
non-empty generator) -/

theorem foldl_min_le (l : List Nat) : ∀ a : Nat,
    l.foldl Nat.min a ≤ a ∧ ∀ x ∈ l, l.foldl Nat.min a ≤ x := by
  induction l with
  | nil => intro a; simp
  | cons x l ih =>
    intro a
    have step : List.foldl Nat.min a (x :: l) = List.foldl Nat.min (Nat.min a x) l :=
      rfl
    rcases ih (Nat.min a x) with ⟨h1, h2⟩
    refine ⟨?_, ?_⟩
    · rw [step]
      exact h1.trans (Nat.min_le_left a x)
    · intro y hy
      rcases List.mem_cons.mp hy with rfl | hy
      · rw [step]
        exact h1.trans (Nat.min_le_right a y)
      · rw [step]
        exact h2 y hy

theorem foldl_min_mem (l : List Nat) : ∀ a : Nat,
    l.foldl Nat.min a = a ∨ l.foldl Nat.min a ∈ l := by
  induction l with
  | nil => intro a; simp
  | cons x l ih =>
    intro a
    have step : List.foldl Nat.min a (x :: l) = List.foldl Nat.min (Nat.min a x) l :=
      rfl
    rw [step]
    rcases ih (Nat.min a x) with h | h
    · rcases Nat.le_total a x with hax | hax
      · have hm : Nat.min a x = a := Nat.min_eq_left hax
        exact Or.inl (by rw [h, hm])
      · have hm : Nat.min a x = x := Nat.min_eq_right hax
        exact Or.inr (by rw [h, hm]; exact List.mem_cons_self x l)
    · exact Or.inr (List.mem_cons_of_mem x h)

theorem foldl_max_ge (l : List Nat) : ∀ a : Nat,
    a ≤ l.foldl Nat.max a ∧ ∀ x ∈ l, x ≤ l.foldl Nat.max a := by
  induction l with
  | nil => intro a; simp
  | cons x l ih =>
    intro a
    have step : List.foldl Nat.max a (x :: l) = List.foldl Nat.max (Nat.max a x) l :=
      rfl
    rcases ih (Nat.max a x) with ⟨h1, h2⟩
    refine ⟨?_, ?_⟩
    · rw [step]
      exact (Nat.le_max_left a x).trans h1
    · intro y hy
      rcases List.mem_cons.mp hy with rfl | hy
      · rw [step]
        exact (Nat.le_max_right a y).trans h1
      · rw [step]
        exact h2 y hy

theorem foldl_max_mem (l : List Nat) : ∀ a : Nat,
    l.foldl Nat.max a = a ∨ l.foldl Nat.max a ∈ l := by
  induction l with
  | nil => intro a; simp
  | cons x l ih =>
    intro a
    have step : List.foldl Nat.max a (x :: l) = List.foldl Nat.max (Nat.max a x) l :=
      rfl
    rw [step]
    rcases ih (Nat.max a x) with h | h
    · rcases Nat.le_total a x with hax | hax
      · have hm : Nat.max a x = x := Nat.max_eq_right hax
        exact Or.inr (by rw [h, hm]; exact List.mem_cons_self x l)
      · have hm : Nat.max a x = a := Nat.max_eq_left hax
        exact Or.inl (by rw [h, hm])
    · exact Or.inr (List.mem_cons_of_mem x h)

/-! ## `sorted(candidates, key=...)[0]` -/

theorem sortByKey_perm (key : List Int → Int) (l : List (List Int)) :
    (sortByKey key l).Perm l :=
  List.perm_insertionSort _ l

/-- The head of the key-sorted list is a member with minimal key. -/
theorem sortByKey_headI_spec (key : List Int → Int) {l : List (List Int)}
    (hne : l ≠ []) :
    (sortByKey key l).headI ∈ l ∧
      ∀ x ∈ l, key (sortByKey key l).headI ≤ key x := by
  haveI hTot : IsTotal (List Int) (fun a b => key a ≤ key b) :=
    ⟨fun a b => le_total (key a) (key b)⟩
  haveI hTrans : IsTrans (List Int) (fun a b => key a ≤ key b) :=
    ⟨fun a b c hab hbc => le_trans hab hbc⟩
  have hperm := sortByKey_perm key l
  have hsorted : List.Sorted (fun a b => key a ≤ key b) (sortByKey key l) :=
    List.sorted_insertionSort _ l
  have hne2 : sortByKey key l ≠ [] := by
    intro hc
    rw [hc] at hperm
    exact hne (hperm.symm.eq_nil)
  rcases hd : sortByKey key l with _ | ⟨h0, t⟩
  · exact absurd hd hne2
  · rw [hd] at hperm hsorted
    constructor
    · exact hperm.subset (List.mem_cons_self h0 t)
    · intro x hx
      have hx2 : x ∈ h0 :: t := hperm.symm.subset hx
      simp only [List.headI]
      rcases List.mem_cons.mp hx2 with rfl | hx2
      · exact le_refl _
      · exact (List.sorted_cons.mp hsorted).1 x hx2

/-! ## Game-loop helpers -/

theorem removeNumbers_eq_diff (numbers answer : List Int) :
    removeNumbers numbers answer = numbers.diff answer := by
  rw [removeNumbers, List.diff_eq_foldl]

theorem removeNumbers_eq_filter {numbers : List Int} (answer : List Int)
    (hnd : numbers.Nodup) :
    removeNumbers numbers answer = numbers.filter (· ∉ answer) := by
  rw [removeNumbers_eq_diff]
  exact hnd.diff_eq_filter

theorem removeNumbers_nodup {numbers : List Int} (answer : List Int)
    (hnd : numbers.Nodup) : (removeNumbers numbers answer).Nodup := by
  rw [removeNumbers_eq_filter answer hnd]
  exact hnd.filter _

theorem removeNumbers_length_le (answer : List Int) : ∀ numbers : List Int,
    (removeNumbers numbers answer).length ≤ numbers.length := by
  induction answer with
  | nil => intro numbers; simp [removeNumbers]
  | cons x rest ih =>
    intro numbers
    have step : removeNumbers numbers (x :: rest) =
        removeNumbers (numbers.erase x) rest := rfl
    rw [step]
    exact (ih (numbers.erase x)).trans (numbers.length_erase_le x)

theorem removeNumbers_length_lt {numbers answer : List Int}
    (hne : answer ≠ []) (hmem : ∀ x ∈ answer, x ∈ numbers) :
    (removeNumbers numbers answer).length < numbers.length := by
  rcases List.exists_cons_of_ne_nil hne with ⟨x, rest, rfl⟩
  have step : removeNumbers numbers (x :: rest) =
      removeNumbers (numbers.erase x) rest := rfl
  rw [step]
  have h1 := removeNumbers_length_le rest (numbers.erase x)
  have h2 : (numbers.erase x).length + 1 = numbers.length :=
    List.length_erase_add_one (hmem x (List.mem_cons_self x rest))
  omega

/-- A strategy's `choose_numbers`, abstracted for the game loop: any
non-empty answer it produces from a duplicate-free board is a
duplicate-free selection of board numbers summing to the roll. -/
def ValidChoose (choose : List Int → Int → List Int) : Prop :=
  ∀ ns r, ns.Nodup → choose ns r ≠ [] →
    (choose ns r).Nodup ∧ (∀ x ∈ choose ns r, x ∈ ns) ∧ (choose ns r).sum = r

/-- With a valid strategy, the result of the loop does not depend on the
fuel once it exceeds the number of remaining board numbers: the loop
halts by itself. -/
theorem playAux_fuel {choose : List Int → Int → List Int}
    (rolls : Nat → Int) (hvalid : ValidChoose choose) :
    ∀ (k : Nat) (numbers answer : List Int) (i fuel1 fuel2 : Nat),
    numbers.length ≤ k → numbers.Nodup →
    (answer ≠ [] → ∀ x ∈ answer, x ∈ numbers) →
    numbers.length < fuel1 → numbers.length < fuel2 →
    Game.playAux choose rolls fuel1 i numbers answer =
      Game.playAux choose rolls fuel2 i numbers answer := by
  intro k
  induction k with
  | zero =>
    intro numbers answer i fuel1 fuel2 hk _ _ h1 h2
    have hnum : numbers = [] := List.length_eq_zero.mp (Nat.le_zero.mp hk)
    subst hnum
    rcases fuel1 with _ | f1
    · simp at h1
    · rcases fuel2 with _ | f2
      · simp at h2
      · simp [Game.playAux]
  | succ k ih =>
    intro numbers answer i fuel1 fuel2 hk hnd hans h1 h2
    rcases fuel1 with _ | f1
    · omega
    rcases fuel2 with _ | f2
    · omega
    by_cases hhalt : numbers = [] ∨ answer = []
    · simp [Game.playAux, if_pos hhalt]
    · push_neg at hhalt
      have hne : numbers ≠ [] := hhalt.1
      have hansne : answer ≠ [] := hhalt.2
      simp only [Game.playAux, if_neg (by push_neg; exact ⟨hne, hansne⟩ :
        ¬ (numbers = [] ∨ answer = []))]
      have hlt : (removeNumbers numbers answer).length < numbers.length :=
        removeNumbers_length_lt hansne (hans hansne)
      have hndNew : (removeNumbers numbers answer).Nodup :=
        removeNumbers_nodup answer hnd
      apply ih (removeNumbers numbers answer) _ (i + 1) f1 f2
        (by omega) hndNew _ (by omega) (by omega)
      intro hne2
      exact (hvalid _ _ hndNew hne2).2.1

/-- With a valid strategy and enough fuel, the loop ends in a state where
the `while` condition is false: the board or the answer is empty. -/
theorem playAux_halt_state {choose : List Int → Int → List Int}
    (rolls : Nat → Int) (hvalid : ValidChoose choose) :
    ∀ (k : Nat) (numbers answer : List Int) (i fuel : Nat),
    numbers.length ≤ k → numbers.Nodup →
    (answer ≠ [] → ∀ x ∈ answer, x ∈ numbers) →
    numbers.length < fuel →
    (Game.playAux choose rolls fuel i numbers answer).1 = [] ∨
      (Game.playAux choose rolls fuel i numbers answer).2 = [] := by
  intro k
  induction k with
  | zero =>
    intro numbers answer i fuel hk _ _ h1
    have hnum : numbers = [] := List.length_eq_zero.mp (Nat.le_zero.mp hk)
    subst hnum
    rcases fuel with _ | f1
    · simp at h1
    · simp [Game.playAux]
  | succ k ih =>
    intro numbers answer i fuel hk hnd hans h1
    rcases fuel with _ | f1
    · omega
    by_cases hhalt : numbers = [] ∨ answer = []
    · simpa [Game.playAux, if_pos hhalt] using hhalt
    · push_neg at hhalt
      have hne : numbers ≠ [] := hhalt.1
      have hansne : answer ≠ [] := hhalt.2
      simp only [Game.playAux, if_neg (by push_neg; exact ⟨hne, hansne⟩ :
        ¬ (numbers = [] ∨ answer = []))]
      have hlt : (removeNumbers numbers answer).length < numbers.length :=
        removeNumbers_length_lt hansne (hans hansne)
      have hndNew : (removeNumbers numbers answer).Nodup :=
        removeNumbers_nodup answer hnd
      apply ih (removeNumbers numbers answer) _ (i + 1) f1
        (by omega) hndNew _ (by omega)
      intro hne2
      exact (hvalid _ _ hndNew hne2).2.1

theorem length_filter_eq_of_nodup {l : List (List Int)} {a : List Int}
    (hnd : l.Nodup) (ha : a ∈ l) :
    (l.filter (fun x => decide (x = a))).length = 1 := by
  induction l with
  | nil => simp at ha
  | cons x xs ih =>
    rcases List.mem_cons.mp ha with rfl | ha2
    · have hxs : xs.filter (fun y => decide (y = a)) = [] := by
        rw [List.filter_eq_nil_iff]
        intro y hy
        simp only [decide_eq_true_eq]
        intro hc
        subst hc
        exact (List.nodup_cons.mp hnd).1 hy
      rw [List.filter_cons]
      simp [hxs]
    · have hx : ¬ (x = a) := by
        intro hc
        subst hc
        exact (List.nodup_cons.mp hnd).1 ha2
      rw [List.filter_cons]
      simp only [hx, decide_eq_true_eq, if_neg]
      exact ih (List.nodup_cons.mp hnd).2 ha2

/-! ## Claim theorems -/

/-- C1: Soundness of the solution search: for every list `numbers` of
distinct integers in [1,9] and every target ≥ 0, each element of
`find_all_solutions numbers target` is a list of distinct elements drawn
from `numbers` (each used at most once — it is in fact a subsequence of
`numbers`) whose sum equals `target`, and no two elements of the result
are equal as sets. -/
theorem find_all_solutions_sound (numbers : List Int) (target : Int)
    (hnd : numbers.Nodup) (hbound : ∀ x ∈ numbers, 1 ≤ x ∧ x ≤ 9)
    (htgt : 0 ≤ target) :
    (∀ sol ∈ find_all_solutions numbers target,
      sol.Nodup ∧ List.Sublist sol numbers ∧ sol.sum = target) ∧
    List.Pairwise (fun s1 s2 => s1.toFinset ≠ s2.toFinset)
      (find_all_solutions numbers target) := by
  have hnn : ∀ x ∈ numbers, 0 ≤ x := fun x hx => by
    have := (hbound x hx).1
    omega
  constructor
  · intro sol hsol
    rcases (mem_find_all_solutions hnn).mp hsol with ⟨hsub, hsum⟩
    exact ⟨hnd.sublist hsub, hsub, hsum⟩
  · have hndall := nodup_find_all_solutions hnd hnn target
    refine List.Pairwise.imp_of_mem ?_ hndall
    intro s1 s2 hs1 hs2 hne hfin
    apply hne
    rcases (mem_find_all_solutions hnn).mp hs1 with ⟨hsub1, _⟩
    rcases (mem_find_all_solutions hnn).mp hs2 with ⟨hsub2, _⟩
    have hnd1 : s1.Nodup := hnd.sublist hsub1
    have hnd2 : s2.Nodup := hnd.sublist hsub2
    have hperm : s1.Perm s2 := by
      rw [List.perm_ext_iff_of_nodup hnd1 hnd2]
      intro a
      constructor
      · intro ha
        have : a ∈ s1.toFinset := List.mem_toFinset.mpr ha
        rw [hfin] at this
        exact List.mem_toFinset.mp this
      · intro ha
        have : a ∈ s2.toFinset := List.mem_toFinset.mpr ha
        rw [← hfin] at this
        exact List.mem_toFinset.mp this
    exact sublist_eq_of_perm hnd hsub1 hsub2 hperm

/-- C1 witness: at `numbers = [1,2,3,4]`, `target = 5`, the solution
`[1,4]` found by the search is duplicate-free, a subsequence, and sums
to 5. -/
theorem find_all_solutions_sound_witness :
    ([1, 4] : List Int).Nodup ∧ List.Sublist ([1, 4] : List Int) [1, 2, 3, 4] ∧
      ([1, 4] : List Int).sum = 5 :=
  (find_all_solutions_sound [1, 2, 3, 4] 5 (by decide) (by decide) (by decide)).1
    [1, 4] (by decide)

/-- C2: Completeness of the solution search: for every list `numbers` of
distinct integers in [1,9] and every target ≥ 0, every subset of
`numbers` (i.e. every subsequence, subsets of a duplicate-free list being
in bijection with its subsequences) whose elements sum to `target`
appears exactly once in `find_all_solutions numbers target` — it is a
member, its multiplicity is 1, and no other member is equal to it as a
set; in particular for `numbers = [1,2,3,4]` and `target = 5` the result
is exactly the two subsets {1,4} and {2,3}. -/
theorem find_all_solutions_complete (numbers : List Int) (target : Int)
    (hnd : numbers.Nodup) (hbound : ∀ x ∈ numbers, 1 ≤ x ∧ x ≤ 9)
    (htgt : 0 ≤ target) :
    (∀ s : List Int, List.Sublist s numbers → s.sum = target →
      s ∈ find_all_solutions numbers target ∧
      ((find_all_solutions numbers target).filter
        (fun sol => decide (sol = s))).length = 1 ∧
      ∀ sol ∈ find_all_solutions numbers target,
        sol.toFinset = s.toFinset → sol = s) ∧
    find_all_solutions [1, 2, 3, 4] 5 = [[1, 4], [2, 3]] := by
  have hnn : ∀ x ∈ numbers, 0 ≤ x := fun x hx => by
    have := (hbound x hx).1
    omega
  constructor
  · intro s hsub hsum
    have hmem : s ∈ find_all_solutions numbers target :=
      (mem_find_all_solutions hnn).mpr ⟨hsub, hsum⟩
    have hndall := nodup_find_all_solutions hnd hnn target
    refine ⟨hmem, length_filter_eq_of_nodup hndall hmem, ?_⟩
    intro sol hsol hfin
    rcases (mem_find_all_solutions hnn).mp hsol with ⟨hsub2, _⟩
    have hnds : s.Nodup := hnd.sublist hsub
    have hndsol : sol.Nodup := hnd.sublist hsub2
    have hperm : sol.Perm s := by
      rw [List.perm_ext_iff_of_nodup hndsol hnds]
      intro a
      constructor
      · intro ha
        have : a ∈ sol.toFinset := List.mem_toFinset.mpr ha
        rw [hfin] at this
        exact List.mem_toFinset.mp this
      · intro ha
        have : a ∈ s.toFinset := List.mem_toFinset.mpr ha
        rw [← hfin] at this
        exact List.mem_toFinset.mp this
    exact sublist_eq_of_perm hnd hsub2 hsub hperm
  · rfl

/-- C2 witness: the subset `[2,3]` of `[1,2,3,4]` summing to 5 appears with
multiplicity exactly 1 in the search result. -/
theorem find_all_solutions_complete_witness :
    ((find_all_solutions [1, 2, 3, 4] 5).filter
      (fun sol => decide (sol = [2, 3]))).length = 1 :=
  ((find_all_solutions_complete [1, 2, 3, 4] 5 (by decide) (by decide)
    (by decide)).1 [2, 3] (by decide) (by decide)).2.1

/-- C10: Zero-target edge case: for every list `numbers` of distinct
integers in [1,9] (including the empty list), `find_all_solutions numbers 0`
returns exactly one solution, the empty list.  (The DFS records the empty
subsolution when the target is 0 and every deeper branch is pruned, its
running target having gone negative.) -/
theorem find_all_solutions_zero_target (numbers : List Int)
    (hnd : numbers.Nodup) (hbound : ∀ x ∈ numbers, 1 ≤ x ∧ x ≤ 9) :
    find_all_solutions numbers 0 = [[]] := by
  have hnn : ∀ x ∈ numbers, 0 ≤ x := fun x hx => by
    have := (hbound x hx).1
    omega
  rw [find_all_solutions_eq_filter hnn, sublistsDFS_eq_cons, List.filter_cons]
  have h0 : ((List.nil : List Int).sum == (0 : Int)) = true := by simp
  rw [h0]
  have htail : (sublistsDFS numbers).tail.filter
      (fun s => s.sum == (0 : Int)) = [] := by
    rw [List.filter_eq_nil_iff]
    intro s hs
    have hsub : List.Sublist s numbers :=
      sublist_of_mem_sublistsDFS ((List.tail_sublist _).subset hs)
    have hne : s ≠ [] := by
      intro hc
      subst hc
      have hndall := nodup_sublistsDFS hnd
      rw [sublistsDFS_eq_cons] at hndall
      exact (List.nodup_cons.mp hndall).1 hs
    rcases List.exists_cons_of_ne_nil hne with ⟨y, ys, rfl⟩
    have hy : 1 ≤ y := (hbound y (hsub.subset (List.mem_cons_self y ys))).1
    have hys : 0 ≤ ys.sum := List.sum_nonneg fun x hx => by
      have := (hbound x (hsub.subset (List.mem_cons_of_mem y hx))).1
      omega
    simp only [List.sum_cons, beq_iff_eq]
    omega
  rw [htail]
  rfl

/-- C10 witness: concrete instance at a non-empty board. -/
theorem find_all_solutions_zero_target_witness :
    find_all_solutions [3, 7] 0 = [[]] :=
  find_all_solutions_zero_target [3, 7] (by decide) (by decide)

/-- C3 counterexample: the claim fails as stated.  `numbers = [5,2]` is a
list of distinct integers in [1,9] and `roll = 2 > 0`, yet with an empty
prior answer `LowestFirst.choose_numbers` produces an empty answer (its
pruning rule `number > roll → return False` aborts on the unsorted head 5)
while `find_all_solutions [5,2] 2 = [[2]]` is non-empty. -/
theorem greedy_validity_counterexample :
    ([5, 2] : List Int).Nodup ∧ (∀ x ∈ ([5, 2] : List Int), 1 ≤ x ∧ x ≤ 9) ∧
    (0 : Int) < 2 ∧
    (LowestFirst.choose_numbers [5, 2] 2 []).2 = [] ∧
    find_all_solutions [5, 2] 2 ≠ [] := by
  refine ⟨by decide, by decide, by decide, ?_, by decide⟩
  norm_num [LowestFirst.choose_numbers, lfGo_cons, lfGo_nil]

/-- C3 (amended): for every list `numbers` of distinct integers in [1,9]
and every roll > 0, with the answer state empty before the call: a
non-empty answer produced by `LowestFirst.choose_numbers` or
`HighestFirst.choose_numbers` is (as a set, i.e. up to permutation) a
member of `find_all_solutions numbers roll`; an empty answer means
`find_all_solutions numbers roll` is empty — for `HighestFirst`
unconditionally, but for `LowestFirst` only when `numbers` is sorted
ascending (as the game loop always supplies it); on unsorted input
`LowestFirst`'s pruning rule can abort although solutions exist. -/
theorem greedy_validity (numbers : List Int) (roll : Int)
    (hnd : numbers.Nodup) (hbound : ∀ x ∈ numbers, 1 ≤ x ∧ x ≤ 9)
    (hroll : 0 < roll) :
    ((LowestFirst.choose_numbers numbers roll []).2 ≠ [] →
      ∃ sol ∈ find_all_solutions numbers roll,
        ((LowestFirst.choose_numbers numbers roll []).2).Perm sol) ∧
    (List.Sorted (· ≤ ·) numbers →
      (LowestFirst.choose_numbers numbers roll []).2 = [] →
      find_all_solutions numbers roll = []) ∧
    ((HighestFirst.choose_numbers numbers roll []).2 ≠ [] →
      ∃ sol ∈ find_all_solutions numbers roll,
        ((HighestFirst.choose_numbers numbers roll []).2).Perm sol) ∧
    ((HighestFirst.choose_numbers numbers roll []).2 = [] →
      find_all_solutions numbers roll = []) := by
  have hnn : ∀ x ∈ numbers, 0 ≤ x := fun x hx => by
    have := (hbound x hx).1
    omega
  have h1 : ∀ x ∈ numbers, 1 ≤ x := fun x hx => (hbound x hx).1
  have hdisj : ∀ x ∈ numbers, x ∉ ([] : List Int) := by simp
  have lfspec := @LowestFirst_spec numbers roll [] hnd hdisj
  have hfspec := @HighestFirst_spec numbers roll [] hnd hdisj
  refine ⟨?_, ?_, ?_, ?_⟩
  · intro hne
    have hb : (LowestFirst.choose_numbers numbers roll []).1 = true := by
      cases hq : (LowestFirst.choose_numbers numbers roll []).1
      · exact absurd (lfspec.1 hq) hne
      · rfl
    rcases lfspec.2 hb with ⟨ext, hext, hnde, hmem, hsum⟩
    rw [List.nil_append] at hext
    rcases exists_sublist_perm hnd (hext ▸ hnde) (hext ▸ hmem) with ⟨s, hssub, hsperm⟩
    refine ⟨s, ?_, hext ▸ hsperm⟩
    apply (mem_find_all_solutions hnn).mpr
    refine ⟨hssub, ?_⟩
    rw [← hsperm.sum_eq, hext]
    exact hsum
  · intro hsort hempty
    by_contra hne
    rcases List.exists_mem_of_ne_nil _ hne with ⟨sol, hsol⟩
    rcases (mem_find_all_solutions hnn).mp hsol with ⟨hsub, hsum⟩
    have hb := LowestFirst_complete [] hnd h1 hsort
      ⟨sol, hnd.sublist hsub, fun x hx => hsub.subset hx, hsum⟩
    rcases lfspec.2 hb with ⟨ext, hext, _, _, hsum2⟩
    rw [List.nil_append] at hext
    rw [hempty] at hext
    rw [← hext] at hsum2
    simp at hsum2
    omega
  · intro hne
    have hb : (HighestFirst.choose_numbers numbers roll []).1 = true := by
      cases hq : (HighestFirst.choose_numbers numbers roll []).1
      · exact absurd (hfspec.1 hq) hne
      · rfl
    rcases hfspec.2 hb with ⟨ext, hext, hnde, hmem, hsum⟩
    rw [List.nil_append] at hext
    rcases exists_sublist_perm hnd (hext ▸ hnde) (hext ▸ hmem) with ⟨s, hssub, hsperm⟩
    refine ⟨s, ?_, hext ▸ hsperm⟩
    apply (mem_find_all_solutions hnn).mpr
    refine ⟨hssub, ?_⟩
    rw [← hsperm.sum_eq, hext]
    exact hsum
  · intro hempty
    by_contra hne
    rcases List.exists_mem_of_ne_nil _ hne with ⟨sol, hsol⟩
    rcases (mem_find_all_solutions hnn).mp hsol with ⟨hsub, hsum⟩
    have hb := HighestFirst_complete [] hnd h1
      ⟨sol, hnd.sublist hsub, fun x hx => hsub.subset hx, hsum⟩
    rcases hfspec.2 hb with ⟨ext, hext, _, _, hsum2⟩
    rw [List.nil_append] at hext
    rw [hempty] at hext
    rw [← hext] at hsum2
    simp at hsum2
    omega

/-- C3 witness: on the sorted board `[2,5]` with roll 9 the `LowestFirst`
answer is empty, and indeed no solutions exist. -/
theorem greedy_validity_witness : find_all_solutions [2, 5] 9 = [] := by
  apply (greedy_validity [2, 5] 9 (by decide) (by decide) (by decide)).2.1
    (by decide)
  norm_num [LowestFirst.choose_numbers, lfGo_cons, lfGo_nil]

/-- C9: Backtracking atomicity: whenever `LowestFirst.choose_numbers` or
`HighestFirst.choose_numbers` returns `False`, the answer state equals its
value before the call — every tentatively appended candidate has been
removed.  (The prior answer is disjoint from the board, which covers the
state at every call the program makes: the game loop resets the answer to
`[]` before selection, and the recursion only appends numbers it removed
from the board.) -/
theorem backtracking_restores_answer (numbers : List Int) (roll : Int)
    (answer : List Int) (hnd : numbers.Nodup)
    (hbound : ∀ x ∈ numbers, 1 ≤ x ∧ x ≤ 9)
    (hdisj : ∀ x ∈ numbers, x ∉ answer) :
    ((LowestFirst.choose_numbers numbers roll answer).1 = false →
      (LowestFirst.choose_numbers numbers roll answer).2 = answer) ∧
    ((HighestFirst.choose_numbers numbers roll answer).1 = false →
      (HighestFirst.choose_numbers numbers roll answer).2 = answer) :=
  ⟨(LowestFirst_spec hnd hdisj).1, (HighestFirst_spec hnd hdisj).1⟩

/-- C9 witness: a failing search on `[5,2]` with roll 2 and prior answer
`[3]` leaves the answer exactly `[3]`. -/
theorem backtracking_restores_answer_witness :
    (LowestFirst.choose_numbers [5, 2] 2 [3]).2 = [3] := by
  apply (backtracking_restores_answer [5, 2] 2 [3] (by decide) (by decide)
    (by decide)).1
  norm_num [LowestFirst.choose_numbers, lfGo_cons, lfGo_nil]

/-! ## Helper lemmas for the enumeration-based policies -/

theorem Random_empty {pick : Nat} {numbers : List Int} {roll : Int}
    {answer : List Int} (hnil : find_all_solutions numbers roll = []) :
    Random.choose_numbers pick numbers roll answer = answer := by
  rw [Random.choose_numbers]
  simp [hnil]

theorem Random_mem {pick : Nat} {numbers : List Int} {roll : Int}
    {answer : List Int} (hne : find_all_solutions numbers roll ≠ []) :
    Random.choose_numbers pick numbers roll answer ∈
      find_all_solutions numbers roll := by
  rw [Random.choose_numbers]
  have hE : (find_all_solutions numbers roll).isEmpty = false := by
    rcases hq : find_all_solutions numbers roll with _ | ⟨a, l⟩
    · exact absurd hq hne
    · rfl
  simp only [hE, Bool.false_eq_true, if_neg (by simp : ¬ (false = true))]
  have hpos : 0 < (find_all_solutions numbers roll).length :=
    List.length_pos.mpr hne
  have hlt : pick % (find_all_solutions numbers roll).length <
      (find_all_solutions numbers roll).length := Nat.mod_lt pick hpos
  rw [List.getD_eq_getElem _ _ hlt]
  exact List.getElem_mem hlt

theorem FewestNumbers_empty {key : List Int → Int} {numbers : List Int}
    {roll : Int} {answer : List Int}
    (hnil : find_all_solutions numbers roll = []) :
    FewestNumbers.choose_numbers key numbers roll answer = answer := by
  rw [FewestNumbers.choose_numbers, hnil]

theorem MostNumbers_empty {key : List Int → Int} {numbers : List Int}
    {roll : Int} {answer : List Int}
    (hnil : find_all_solutions numbers roll = []) :
    MostNumbers.choose_numbers key numbers roll answer = answer := by
  rw [MostNumbers.choose_numbers, hnil]

/-- `FewestNumbers` picks a found solution of minimal length, and among
those of minimal length one minimising the secondary-strategy key. -/
theorem FewestNumbers_spec (key : List Int → Int) (numbers : List Int)
    (roll : Int) (answer : List Int)
    (hne : find_all_solutions numbers roll ≠ []) :
    FewestNumbers.choose_numbers key numbers roll answer ∈
        find_all_solutions numbers roll ∧
      (∀ sol ∈ find_all_solutions numbers roll,
        (FewestNumbers.choose_numbers key numbers roll answer).length ≤
          sol.length) ∧
      (∀ sol ∈ find_all_solutions numbers roll,
        sol.length = (FewestNumbers.choose_numbers key numbers roll answer).length →
        key (FewestNumbers.choose_numbers key numbers roll answer) ≤ key sol) := by
  rcases hsol : find_all_solutions numbers roll with _ | ⟨s, ss⟩
  · exact absurd hsol hne
  · have hdef : FewestNumbers.choose_numbers key numbers roll answer =
        (sortByKey key ((s :: ss).filter
          (fun sol => sol.length == (ss.map List.length).foldl Nat.min s.length))).headI := by
      rw [FewestNumbers.choose_numbers, hsol]
    set m := (ss.map List.length).foldl Nat.min s.length with hm
    have hmin_le : ∀ sol ∈ s :: ss, m ≤ sol.length := by
      intro sol hsol2
      rcases List.mem_cons.mp hsol2 with rfl | hss
      · exact (foldl_min_le (ss.map List.length) sol.length).1
      · exact (foldl_min_le (ss.map List.length) s.length).2 sol.length
          (List.mem_map_of_mem List.length hss)
    have hmin_mem : ∃ sol0 ∈ s :: ss, sol0.length = m := by
      rcases foldl_min_mem (ss.map List.length) s.length with h | h
      · exact ⟨s, List.mem_cons_self s ss, h.symm⟩
      · rcases List.mem_map.mp h with ⟨sol0, hsol0, hlen⟩
        exact ⟨sol0, List.mem_cons_of_mem s hsol0, hlen⟩
    rcases hmin_mem with ⟨sol0, hsol0, hlen0⟩
    have hfilne : (s :: ss).filter (fun sol => sol.length == m) ≠ [] := by
      have hsol0f : sol0 ∈ (s :: ss).filter (fun sol => sol.length == m) := by
        rw [List.mem_filter]
        exact ⟨hsol0, by simp [hlen0]⟩
      exact List.ne_nil_of_mem hsol0f
    rcases sortByKey_headI_spec key hfilne with ⟨hmemf, hminkey⟩
    have hansmem : FewestNumbers.choose_numbers key numbers roll answer ∈ s :: ss := by
      rw [hdef]
      exact (List.mem_filter.mp hmemf).1
    have hanslen : (FewestNumbers.choose_numbers key numbers roll answer).length = m := by
      have := (List.mem_filter.mp hmemf).2
      rw [hdef]
      simpa using this
    refine ⟨hansmem, ?_, ?_⟩
    · intro sol hsol2
      rw [hanslen]
      exact hmin_le sol hsol2
    · intro sol hsol2 hlen
      rw [hdef]
      apply hminkey
      rw [List.mem_filter]
      refine ⟨hsol2, by simp [hlen, hanslen]⟩

/-- `MostNumbers` picks a found solution of maximal length, and among
those of maximal length one minimising the secondary-strategy key. -/
theorem MostNumbers_spec (key : List Int → Int) (numbers : List Int)
    (roll : Int) (answer : List Int)
    (hne : find_all_solutions numbers roll ≠ []) :
    MostNumbers.choose_numbers key numbers roll answer ∈
        find_all_solutions numbers roll ∧
      (∀ sol ∈ find_all_solutions numbers roll,
        sol.length ≤ (MostNumbers.choose_numbers key numbers roll answer).length) ∧
      (∀ sol ∈ find_all_solutions numbers roll,
        sol.length = (MostNumbers.choose_numbers key numbers roll answer).length →
        key (MostNumbers.choose_numbers key numbers roll answer) ≤ key sol) := by
  rcases hsol : find_all_solutions numbers roll with _ | ⟨s, ss⟩
  · exact absurd hsol hne
  · have hdef : MostNumbers.choose_numbers key numbers roll answer =
        (sortByKey key ((s :: ss).filter
          (fun sol => sol.length == (ss.map List.length).foldl Nat.max s.length))).headI := by
      rw [MostNumbers.choose_numbers, hsol]
    set m := (ss.map List.length).foldl Nat.max s.length with hm
    have hmax_ge : ∀ sol ∈ s :: ss, sol.length ≤ m := by
      intro sol hsol2
      rcases List.mem_cons.mp hsol2 with rfl | hss
      · exact (foldl_max_ge (ss.map List.length) sol.length).1
      · exact (foldl_max_ge (ss.map List.length) s.length).2 sol.length
          (List.mem_map_of_mem List.length hss)
    have hmax_mem : ∃ sol0 ∈ s :: ss, sol0.length = m := by
      rcases foldl_max_mem (ss.map List.length) s.length with h | h
      · exact ⟨s, List.mem_cons_self s ss, h.symm⟩
      · rcases List.mem_map.mp h with ⟨sol0, hsol0, hlen⟩
        exact ⟨sol0, List.mem_cons_of_mem s hsol0, hlen⟩
    rcases hmax_mem with ⟨sol0, hsol0, hlen0⟩
    have hfilne : (s :: ss).filter (fun sol => sol.length == m) ≠ [] := by
      have hsol0f : sol0 ∈ (s :: ss).filter (fun sol => sol.length == m) := by
        rw [List.mem_filter]
        exact ⟨hsol0, by simp [hlen0]⟩
      exact List.ne_nil_of_mem hsol0f
    rcases sortByKey_headI_spec key hfilne with ⟨hmemf, hminkey⟩
    have hansmem : MostNumbers.choose_numbers key numbers roll answer ∈ s :: ss := by
      rw [hdef]
      exact (List.mem_filter.mp hmemf).1
    have hanslen : (MostNumbers.choose_numbers key numbers roll answer).length = m := by
      have := (List.mem_filter.mp hmemf).2
      rw [hdef]
      simpa using this
    refine ⟨hansmem, ?_, ?_⟩
    · intro sol hsol2
      rw [hanslen]
      exact hmax_ge sol hsol2
    · intro sol hsol2 hlen
      rw [hdef]
      apply hminkey
      rw [List.mem_filter]
      refine ⟨hsol2, by simp [hlen, hanslen]⟩

/-- The invariant every policy answer must satisfy (spec §3): a non-empty
answer is a duplicate-free selection of board numbers summing to the
roll. -/
def AnswerInvariant (numbers : List Int) (roll : Int) (a : List Int) : Prop :=
  a ≠ [] → a.Nodup ∧ (∀ x ∈ a, x ∈ numbers) ∧ a.sum = roll

/-- C4: Policy-result invariant: for every policy variant (LowestFirst,
HighestFirst, ExactThenLowest, ExactThenHighest, Random — over every
possible random draw — FewestNumbers and MostNumbers — over every
secondary strategy), for every NumberSet `numbers` (distinct integers in
[1,9]) and roll, with the answer state empty before the call, any
non-empty answer produced by `choose_numbers` is a subset of `numbers`
with no repeated elements whose sum equals the roll. -/
theorem policy_answer_invariant (numbers : List Int) (roll : Int)
    (hnd : numbers.Nodup) (hbound : ∀ x ∈ numbers, 1 ≤ x ∧ x ≤ 9) :
    AnswerInvariant numbers roll ((LowestFirst.choose_numbers numbers roll []).2) ∧
    AnswerInvariant numbers roll ((HighestFirst.choose_numbers numbers roll []).2) ∧
    AnswerInvariant numbers roll (ExactThenLowest.choose_numbers numbers roll []) ∧
    AnswerInvariant numbers roll (ExactThenHighest.choose_numbers numbers roll []) ∧
    (∀ pick : Nat,
      AnswerInvariant numbers roll (Random.choose_numbers pick numbers roll [])) ∧
    (∀ key : List Int → Int,
      AnswerInvariant numbers roll (FewestNumbers.choose_numbers key numbers roll [])) ∧
    (∀ key : List Int → Int,
      AnswerInvariant numbers roll (MostNumbers.choose_numbers key numbers roll [])) := by
  have hnn : ∀ x ∈ numbers, 0 ≤ x := fun x hx => by
    have := (hbound x hx).1
    omega
  have hdisj : ∀ x ∈ numbers, x ∉ ([] : List Int) := by simp
  have hsolinv : ∀ sol ∈ find_all_solutions numbers roll,
      sol.Nodup ∧ (∀ x ∈ sol, x ∈ numbers) ∧ sol.sum = roll := by
    intro sol hsol
    rcases (mem_find_all_solutions hnn).mp hsol with ⟨hsub, hsum⟩
    exact ⟨hnd.sublist hsub, fun x hx => hsub.subset hx, hsum⟩
  have hlf : AnswerInvariant numbers roll
      ((LowestFirst.choose_numbers numbers roll []).2) := by
    intro hne
    have lfspec := @LowestFirst_spec numbers roll [] hnd hdisj
    have hb : (LowestFirst.choose_numbers numbers roll []).1 = true := by
      cases hq : (LowestFirst.choose_numbers numbers roll []).1
      · exact absurd (lfspec.1 hq) hne
      · rfl
    rcases lfspec.2 hb with ⟨ext, hext, hnde, hmem, hsum⟩
    rw [List.nil_append] at hext
    rw [hext]
    exact ⟨hnde, hmem, hsum⟩
  have hhf : AnswerInvariant numbers roll
      ((HighestFirst.choose_numbers numbers roll []).2) := by
    intro hne
    have hfspec := @HighestFirst_spec numbers roll [] hnd hdisj
    have hb : (HighestFirst.choose_numbers numbers roll []).1 = true := by
      cases hq : (HighestFirst.choose_numbers numbers roll []).1
      · exact absurd (hfspec.1 hq) hne
      · rfl
    rcases hfspec.2 hb with ⟨ext, hext, hnde, hmem, hsum⟩
    rw [List.nil_append] at hext
    rw [hext]
    exact ⟨hnde, hmem, hsum⟩
  refine ⟨hlf, hhf, ?_, ?_, ?_, ?_, ?_⟩
  · rw [ExactThenLowest.choose_numbers]
    by_cases hmem : roll ∈ numbers
    · rw [if_pos hmem]
      intro _
      exact ⟨by simp, by simpa using hmem, by simp⟩
    · rw [if_neg hmem]
      exact hlf
  · rw [ExactThenHighest.choose_numbers]
    by_cases hmem : roll ∈ numbers
    · rw [if_pos hmem]
      intro _
      exact ⟨by simp, by simpa using hmem, by simp⟩
    · rw [if_neg hmem]
      exact hhf
  · intro pick hne
    by_cases hnil : find_all_solutions numbers roll = []
    · exact absurd (Random_empty hnil) hne
    · exact hsolinv _ (Random_mem hnil)
  · intro key hne
    by_cases hnil : find_all_solutions numbers roll = []
    · exact absurd (FewestNumbers_empty hnil) hne
    · exact hsolinv _ (FewestNumbers_spec key numbers roll [] hnil).1
  · intro key hne
    by_cases hnil : find_all_solutions numbers roll = []
    · exact absurd (MostNumbers_empty hnil) hne
    · exact hsolinv _ (MostNumbers_spec key numbers roll [] hnil).1

/-- C4 witness: the LowestFirst answer on board `[1,2,3]` with roll 3 sums
to the roll. -/
theorem policy_answer_invariant_witness :
    ((LowestFirst.choose_numbers [1, 2, 3] 3 []).2).sum = 3 := by
  have hval : (LowestFirst.choose_numbers [1, 2, 3] 3 []).2 = [1, 2] := by
    norm_num [LowestFirst.choose_numbers, lfGo_cons, lfGo_nil]
  refine ((policy_answer_invariant [1, 2, 3] 3 (by decide) (by decide)).1 ?_).2.2
  rw [hval]
  decide

/-- C5: Exact short-circuit: whenever the roll itself is on the board,
`ExactThenLowest.choose_numbers` and `ExactThenHighest.choose_numbers`
answer exactly the singleton `[roll]` (the `if roll in numbers` branch
returns without invoking the inherited greedy search); in particular
`ExactThenLowest` on `[2,5,9]` with roll 5 answers `[5]` — and on
`[1,4,5]` with roll 5 it answers `[5]` although the greedy `LowestFirst`
search would have produced `[1,4]`. -/
theorem exact_short_circuit (numbers : List Int) (roll : Int)
    (hmem : roll ∈ numbers) :
    ExactThenLowest.choose_numbers numbers roll [] = [roll] ∧
    ExactThenHighest.choose_numbers numbers roll [] = [roll] ∧
    ExactThenLowest.choose_numbers [2, 5, 9] 5 [] = [5] ∧
    ExactThenLowest.choose_numbers [1, 4, 5] 5 [] = [5] ∧
    (LowestFirst.choose_numbers [1, 4, 5] 5 []).2 = [1, 4] := by
  refine ⟨?_, ?_, ?_, ?_, ?_⟩
  · rw [ExactThenLowest.choose_numbers, if_pos hmem]
    rfl
  · rw [ExactThenHighest.choose_numbers, if_pos hmem]
    rfl
  · rw [ExactThenLowest.choose_numbers, if_pos (by decide : (5:Int) ∈ [2,5,9])]
    rfl
  · rw [ExactThenLowest.choose_numbers, if_pos (by decide : (5:Int) ∈ [1,4,5])]
    rfl
  · norm_num [LowestFirst.choose_numbers, lfGo_cons, lfGo_nil]

/-- C5 witness: instance at `numbers = [2,5,9]`, roll 5. -/
theorem exact_short_circuit_witness :
    ExactThenLowest.choose_numbers [2, 5, 9] 5 [] = [5] :=
  (exact_short_circuit [2, 5, 9] 5 (by decide)).1

/-- C6: Length-extremal selection: whenever `find_all_solutions` is
non-empty, `FewestNumbers.choose_numbers` answers a found solution whose
length equals the minimum length over all found solutions and
`MostNumbers.choose_numbers` one whose length equals the maximum; among
the solutions of that extremal length, one with the smallest
`secondary_strategy` value is chosen.  When `find_all_solutions` is
empty, neither sets a non-empty answer. -/
theorem length_extremal_selection (key1 key2 : List Int → Int)
    (numbers : List Int) (roll : Int) :
    (find_all_solutions numbers roll ≠ [] →
      (FewestNumbers.choose_numbers key1 numbers roll [] ∈
          find_all_solutions numbers roll ∧
        (∀ sol ∈ find_all_solutions numbers roll,
          (FewestNumbers.choose_numbers key1 numbers roll []).length ≤ sol.length) ∧
        (∀ sol ∈ find_all_solutions numbers roll,
          sol.length = (FewestNumbers.choose_numbers key1 numbers roll []).length →
          key1 (FewestNumbers.choose_numbers key1 numbers roll []) ≤ key1 sol)) ∧
      (MostNumbers.choose_numbers key2 numbers roll [] ∈
          find_all_solutions numbers roll ∧
        (∀ sol ∈ find_all_solutions numbers roll,
          sol.length ≤ (MostNumbers.choose_numbers key2 numbers roll []).length) ∧
        (∀ sol ∈ find_all_solutions numbers roll,
          sol.length = (MostNumbers.choose_numbers key2 numbers roll []).length →
          key2 (MostNumbers.choose_numbers key2 numbers roll []) ≤ key2 sol))) ∧
    (find_all_solutions numbers roll = [] →
      FewestNumbers.choose_numbers key1 numbers roll [] = [] ∧
      MostNumbers.choose_numbers key2 numbers roll [] = []) := by
  constructor
  · intro hne
    exact ⟨FewestNumbers_spec key1 numbers roll [] hne,
      MostNumbers_spec key2 numbers roll [] hne⟩
  · intro hnil
    exact ⟨FewestNumbers_empty hnil, MostNumbers_empty hnil⟩

/-- C6 witness: on `[1,2,3,4,5]` with roll 6 (solutions `[1,2,3]`, `[1,5]`,
`[2,4]`), the FewestNumbers answer is one of the found solutions. -/
theorem length_extremal_selection_witness :
    FewestNumbers.choose_numbers List.headI [1, 2, 3, 4, 5] 6 [] ∈
      find_all_solutions [1, 2, 3, 4, 5] 6 :=
  ((length_extremal_selection List.headI List.headI [1, 2, 3, 4, 5] 6).1
    (by decide)).1.1

/-- C7: Game-loop contract: for every strategy (any `choose` function whose
answers satisfy the policy invariant, which all seven variants do — an
invalid answer would make Python's `list.remove` raise instead) and every
sequence of die outcomes: (1) `Game.play` halts — the loop's result is
already reached at fuel 10 and does not change with more fuel; (2) at the
halt state the `while` condition is false: the board or the answer is
empty; (3) on each turn in which the policy produced a non-empty answer
the loop removes exactly that answer's elements from the board and
continues with the next roll; (4) `Game.score` of the halt-state board is
the sum of the remaining numbers. -/
theorem game_play_contract (choose : List Int → Int → List Int)
    (rolls : Nat → Int) (hvalid : ValidChoose choose) :
    (∀ fuel : Nat, 9 < fuel →
      Game.playAux choose rolls fuel 1 Game.initialNumbers
        (choose Game.initialNumbers (rolls 0)) = Game.play choose rolls) ∧
    ((Game.play choose rolls).1 = [] ∨ (Game.play choose rolls).2 = []) ∧
    (∀ (fuel i : Nat) (numbers answer : List Int), numbers.Nodup →
      numbers ≠ [] → answer ≠ [] →
      Game.playAux choose rolls (fuel + 1) i numbers answer =
        Game.playAux choose rolls fuel (i + 1) (numbers.filter (· ∉ answer))
          (choose (numbers.filter (· ∉ answer)) (rolls i))) ∧
    Game.score (Game.play choose rolls).1 = ((Game.play choose rolls).1).sum := by
  have hnd0 : Game.initialNumbers.Nodup := by decide
  have hlen0 : Game.initialNumbers.length = 9 := by decide
  have hans0 : choose Game.initialNumbers (rolls 0) ≠ [] →
      ∀ x ∈ choose Game.initialNumbers (rolls 0), x ∈ Game.initialNumbers :=
    fun hne => (hvalid _ _ hnd0 hne).2.1
  refine ⟨?_, ?_, ?_, rfl⟩
  · intro fuel hfuel
    rw [Game.play]
    exact playAux_fuel rolls hvalid 9 Game.initialNumbers
      (choose Game.initialNumbers (rolls 0)) 1 fuel 10
      (by rw [hlen0]) hnd0 hans0 (by omega) (by omega)
  · rw [Game.play]
    exact playAux_halt_state rolls hvalid 9 Game.initialNumbers
      (choose Game.initialNumbers (rolls 0)) 1 10
      (by rw [hlen0]) hnd0 hans0 (by omega)
  · intro fuel i numbers answer hnd hne hansne
    have hcond : ¬ (numbers = [] ∨ answer = []) := by
      push_neg
      exact ⟨hne, hansne⟩
    rw [Game.playAux, if_neg hcond, removeNumbers_eq_filter answer hnd]

/-- The simplest valid strategy, used to witness the game-loop contract:
take the rolled number itself when it is on the board, else give up. -/
def exactChoose (numbers : List Int) (roll : Int) : List Int :=
  if roll ∈ numbers then [roll] else []

theorem exactChoose_valid : ValidChoose exactChoose := by
  intro ns r _ hne
  rw [exactChoose] at hne ⊢
  by_cases hmem : r ∈ ns
  · rw [if_pos hmem]
    exact ⟨by simp, by simpa using hmem, by simp⟩
  · rw [if_neg hmem] at hne
    exact absurd rfl hne

/-- C7 witness: with the exact-match strategy and constant rolls of 4, the
game reaches a halt state in which the board or the answer is empty. -/
theorem game_play_contract_witness :
    (Game.play exactChoose (fun _ => 4)).1 = [] ∨
      (Game.play exactChoose (fun _ => 4)).2 = [] :=
  (game_play_contract exactChoose (fun _ => 4) exactChoose_valid).2.1

/-- C8: Abstract-base failure: for every board and roll, `choose_numbers`
on a directly instantiated `Strategy`, and on a directly instantiated
`SolutionLength` (with any secondary strategy), raises
`NotImplementedError` — modelled as an `Except.error` — and never
produces a solution. -/
theorem abstract_base_fails (numbers : List Int) (roll : Int)
    (secondary_strategy : List Int → Int) :
    Strategy.choose_numbers numbers roll =
        Except.error "NotImplementedError" ∧
      (∀ sol : List Int, Strategy.choose_numbers numbers roll ≠ Except.ok sol) ∧
      SolutionLength.choose_numbers secondary_strategy numbers roll =
        Except.error "NotImplementedError" ∧
      (∀ sol : List Int,
        SolutionLength.choose_numbers secondary_strategy numbers roll ≠
          Except.ok sol) := by
  refine ⟨rfl, ?_, rfl, ?_⟩
  · intro sol hc
    exact Except.noConfusion hc
  · intro sol hc
    exact Except.noConfusion hc

end ShutTheBox
